import Mathlib

/-!
# Verification of the `bitee` bit array

A shallow embedding of `bitee.go` (package `bitee`) and theorems about it.

Conventions of the embedding:

* Go's `int` is a 64-bit two's-complement integer.  Values are carried as `Int`
  and every arithmetic result that can leave the 64-bit range is passed
  through `wrapInt`.  Go's `uint` is carried as `Nat`, conversions go through
  `toUint`.  Go's `/` and `%` on `int` truncate towards zero (`Int.tdiv`,
  `Int.tmod`).
* A `byte` is a `Nat` below 256; conversions to `byte` go through `toByte`.
* A method with a pointer receiver that mutates the receiver returns the
  receiver's new value together with its Go result.
* A run-time panic (index out of range, `make` with a size it refuses) is the
  outer `none` of the result.  `New` and `ToString` carry the whole size check of
  `make` on a 64-bit platform: a negative size, or more than `maxAlloc` bytes.
  Running out of memory below that limit is not modelled.
-/

namespace Bitee

/-! ## Machine integers -/

/-- Wrap an integer into the range of Go's 64-bit `int`. -/
def wrapInt (x : Int) : Int :=
  (x + 9223372036854775808) % 18446744073709551616 - 9223372036854775808

/-- The conversion `uint(x)` of an `int`. -/
def toUint (x : Int) : Nat :=
  (x % 18446744073709551616).toNat

/-- The conversion `byte(x)` of an `int`. -/
def toByte (x : Int) : Nat :=
  (x % 256).toNat

/-! ## Package level variables -/

/-- The variable `bitsPerUnit = 8`. -/
def bitsPerUnit : Int := 8

/-- The four sentinel errors of the package; Go's `nil` error is `none`. -/
inductive GoError where
  | errSetZero
  | errOutOfIndex
  | errUnset
  | errSet
  deriving DecidableEq, Repr

/-- The struct `BitArray`: the logical length and the backing byte slice. -/
structure BitArray where
  length : Int
  arr : List Nat
  deriving DecidableEq, Repr

/-! ## Functions of `bitee.go` -/

/-- The method `Size`. -/
def BitArray.Size (b : BitArray) : Int := b.length

/-- The function `calPosition`: `p--`, then `uint(p / bitsPerUnit), uint(p % bitsPerUnit)`. -/
def calPosition (p : Int) : Nat × Nat :=
  let p := wrapInt (p - 1)
  (toUint (p.tdiv bitsPerUnit), toUint (p.tmod bitsPerUnit))

/-- The most bytes the Go runtime allocates for one object on a 64-bit platform,
`2 ^ 48`. -/
def maxAlloc : Int := 281474976710656

/-- The size check of `make` for a slice of `size` elements of `elemSize` bytes each:
it panics when `size` is negative or the elements take more than `maxAlloc` bytes. -/
def makePanics (elemSize size : Int) : Bool :=
  decide (size < 0 ∨ elemSize * size > maxAlloc)

/-- The block count computed at the start of `New`. -/
def newBlocks (length : Int) : Int :=
  let blocks := length.tdiv bitsPerUnit
  let remainer := length.tmod bitsPerUnit
  if remainer > 0 then blocks + 1 else blocks

/-- The function `New`; `make([]byte, blocks, blocks)` panics when `blocks` is negative
or above `maxAlloc` (a byte takes one byte). -/
def New (length : Int) : Option BitArray :=
  let blocks := newBlocks length
  if makePanics 1 blocks = true then none
  else some (BitArray.mk length (List.replicate blocks.toNat 0))

/-- The function `isSet`: `b & (0x80 >> p) > 0`, the shift done in type `byte`. -/
def isSet (b : Nat) (p : Nat) : Bool :=
  let val := b &&& (128 >>> p)
  if val > 0 then true else false

/-- The method `validPosition`. -/
def BitArray.validPosition (b : BitArray) (p : Int) : Option GoError :=
  if p < 1 then some GoError.errSetZero
  else if p > b.length then some GoError.errOutOfIndex
  else none

/-- The method `SetBit`: the receiver after the call and the returned error. -/
def BitArray.SetBit (b : BitArray) (n : Int) : Option (BitArray × Option GoError) :=
  match b.validPosition n with
  | some err => some (b, some err)
  | none =>
    match calPosition n with
    | (block, position) =>
      match b.arr[block]? with
      | none => none
      | some byte =>
        if isSet byte position = true then some (b, some GoError.errSet)
        else some (BitArray.mk b.length (b.arr.set block (byte ||| (128 >>> position))), none)

/-- The method `UnSetBit`: the receiver after the call and the returned error.
The new byte is `byte(int(b.arr[block]) - int(0x80>>position))`. -/
def BitArray.UnSetBit (b : BitArray) (n : Int) : Option (BitArray × Option GoError) :=
  match b.validPosition n with
  | some err => some (b, some err)
  | none =>
    match calPosition n with
    | (block, position) =>
      match b.arr[block]? with
      | none => none
      | some byte =>
        if isSet byte position = false then some (b, some GoError.errUnset)
        else
          let cleared := toByte ((byte : Int) - ((128 >>> position : Nat) : Int))
          some (BitArray.mk b.length (b.arr.set block cleared), none)

/-- The loop `for i := 1; i <= b.length; i++` of `ToValue`, started at `i` with
the values collected so far.  The first argument bounds the number of
iterations; `none` is a panic of `b.arr[block]` (or no iterations left). -/
def BitArray.toValueLoop (b : BitArray) : Nat → Int → List Int → Option (List Int)
  | 0, _, _ => none
  | fuel + 1, i, vals =>
    if i ≤ b.length then
      match calPosition i with
      | (block, p) =>
        match b.arr[block]? with
        | none => none
        | some byte =>
          b.toValueLoop fuel (wrapInt (i + 1)) (if isSet byte p = true then vals ++ [i] else vals)
    else some vals

/-- The method `ToValue`.  `make([]int, 0, b.length)` panics when `b.length`
is negative; the loop runs at most `b.length` times before its guard fails. -/
def BitArray.ToValue (b : BitArray) : Option (List Int × Option GoError) :=
  if b.length < 0 then none
  else
    match b.toValueLoop (b.length.toNat + 1) 1 [] with
    | none => none
    | some vals => some (vals, none)

/-- A Go `[]int` value: the nil slice, or a slice with its elements. -/
inductive IntSlice where
  | nil
  | mk (elems : List Int)
  deriving DecidableEq, Repr

/-- Go's `append(s, x)`: the result holds an element and is never nil. -/
def IntSlice.append : IntSlice → Int → IntSlice
  | IntSlice.nil, x => IntSlice.mk [x]
  | IntSlice.mk elems, x => IntSlice.mk (elems ++ [x])

/-- The loop of `ToValue` again, with `vals` kept as a Go slice. -/
def BitArray.toValueSliceLoop (b : BitArray) : Nat → Int → IntSlice → Option IntSlice
  | 0, _, _ => none
  | fuel + 1, i, vals =>
    if i ≤ b.length then
      match calPosition i with
      | (block, p) =>
        match b.arr[block]? with
        | none => none
        | some byte =>
          b.toValueSliceLoop fuel (wrapInt (i + 1))
            (if isSet byte p = true then vals.append i else vals)
    else some vals

/-- The method `ToValue` again, with the returned `[]int` kept as a Go slice:
`make([]int, 0, b.length)` is a slice without elements that is not nil. -/
def BitArray.ToValueSlice (b : BitArray) : Option (IntSlice × Option GoError) :=
  if b.length < 0 then none
  else
    match b.toValueSliceLoop (b.length.toNat + 1) 1 (IntSlice.mk []) with
    | none => none
    | some vals => some (vals, none)

/-- Go's `fmt.Sprintf("%b", bt)` for a byte: the binary digits of `bt`, most
significant first, without leading zeros (`"0"` for zero). -/
def fmtBinary (bt : Nat) : String :=
  String.mk (Nat.toDigits 2 bt)

/-- Go's `strings.Repeat(s, count)` for a non-negative count. -/
def stringsRepeat (s : String) (count : Nat) : String :=
  String.join (List.replicate count s)

/-- The loop `for _, bt := range b.arr` of `ToString`. -/
def BitArray.toStringLoop : List Nat → List String → List String
  | [], vals => vals
  | bt :: rest, vals =>
    let toBinary := fmtBinary bt
    let vals :=
      if toBinary.length < 8 then vals ++ [stringsRepeat "0" (8 - toBinary.length)] else vals
    BitArray.toStringLoop rest (vals ++ [toBinary])

/-- The method `ToString`.  `make([]string, 0, b.length*2)` panics when the
capacity is negative or its strings (16 bytes each) take more than `maxAlloc`
bytes; `strings.Join(vals, "")` is the concatenation. -/
def BitArray.ToString (b : BitArray) : Option String :=
  if makePanics 16 (wrapInt (b.length * 2)) = true then none
  else some (String.join (BitArray.toStringLoop b.arr []))

/-- The method `IsSet`. -/
def BitArray.IsSet (b : BitArray) (p : Int) : Option (Bool × Option GoError) :=
  match b.validPosition p with
  | some err => some (false, some err)
  | none =>
    match calPosition p with
    | (block, position) =>
      match b.arr[block]? with
      | none => none
      | some byte => some (isSet byte position, none)

/-! ## Well-formed arrays -/

/-- The number of bytes needed for `length` bits, `ceil(length / 8)`. -/
def ceilBlocks (length : Int) : Nat := ((length + 7) / 8).toNat

/-- A well-formed array: the length is a non-negative `int` whose double (the
capacity computed by `ToString`) is an `int` too, the storage has
`ceil(length / 8)` elements, and every element is a byte. -/
structure WellFormed (b : BitArray) : Prop where
  length_nonneg : 0 ≤ b.length
  length_lt : b.length < 4611686018427387904
  arr_length : b.arr.length = ceilBlocks b.length
  bytes : ∀ x ∈ b.arr, x < 256

/-! ## Reading positions of the storage -/

/-- The bit at the 0-based index `n` of the storage: byte `n / 8`, offset `n % 8`
(`false` outside the storage). -/
def bitOf (arr : List Nat) (n : Nat) : Bool :=
  match arr[n / 8]? with
  | some byte => isSet byte (n % 8)
  | none => false

/-- The positions `1..length` whose bit is set, ascending. -/
def setPositions (b : BitArray) : List Int :=
  ((List.range b.length.toNat).filter (bitOf b.arr)).map (fun j : Nat => (j : Int) + 1)

/-! ## Rendering of the storage -/

/-- The strings one iteration of the loop of `ToString` appends for the byte `bt`:
the zero padding when the binary digits are fewer than 8, then the digits. -/
def byteStrings (bt : Nat) : List String :=
  (if (fmtBinary bt).length < 8 then [stringsRepeat "0" (8 - (fmtBinary bt).length)] else []) ++
    [fmtBinary bt]

/-- The eight characters of a byte, most significant bit first: `'1'` where
`isSet` holds, `'0'` elsewhere. -/
def byteChars (bt : Nat) : List Char :=
  (List.range 8).map (fun k => if isSet bt k = true then '1' else '0')

/-! ## Sequences of calls -/

/-- A mutating call of the public interface, with its integer argument. -/
inductive Call where
  | setBit (p : Int)
  | unSetBit (p : Int)
  deriving DecidableEq, Repr

/-- Perform one call on the array. -/
def BitArray.call (b : BitArray) : Call → Option (BitArray × Option GoError)
  | Call.setBit p => b.SetBit p
  | Call.unSetBit p => b.UnSetBit p

/-- Perform a finite sequence of calls one after the other, whatever error each
returns; `none` when one of them panics. -/
def BitArray.calls (b : BitArray) : List Call → Option BitArray
  | [] => some b
  | c :: cs =>
    match b.call c with
    | none => none
    | some (b', _) => b'.calls cs

/-- The storage with the bit of the 0-based index `n` or-ed in, as `SetBit` writes it. -/
def orBit (arr : List Nat) (n : Nat) : List Nat :=
  match arr[n / 8]? with
  | some byte => arr.set (n / 8) (byte ||| (128 >>> (n % 8)))
  | none => arr

/-! ## Machine integers: basic facts -/

theorem wrapInt_of_range (x : Int) (h1 : -9223372036854775808 ≤ x)
    (h2 : x < 9223372036854775808) : wrapInt x = x := by
  unfold wrapInt
  omega

theorem toUint_natCast (n : Nat) (h : n < 18446744073709551616) : toUint (n : Int) = n := by
  unfold toUint
  omega

/-- On the position `n + 1` of a 64-bit `int`, `calPosition` is `(n / 8, n % 8)`. -/
theorem calPosition_succ (n : Nat) (h : n < 9223372036854775808) :
    calPosition ((n : Int) + 1) = (n / 8, n % 8) := by
  have hw : wrapInt ((n : Int) + 1 - 1) = (n : Int) := by
    rw [wrapInt_of_range] <;> omega
  have hd : (n : Int).tdiv 8 = ((n / 8 : Nat) : Int) := by
    rw [Int.tdiv_eq_ediv (by omega) (by omega)]
    omega
  have hm : (n : Int).tmod 8 = ((n % 8 : Nat) : Int) := by
    rw [Int.tmod_eq_emod (by omega) (by omega)]
    omega
  simp only [calPosition, bitsPerUnit, hw, hd, hm]
  rw [toUint_natCast _ (by omega), toUint_natCast _ (by omega)]

/-- The block count of `New` on a non-negative length is `ceil(length / 8)`. -/
theorem newBlocks_of_nonneg (L : Int) (h : 0 ≤ L) : newBlocks L = ((ceilBlocks L : Nat) : Int) := by
  simp only [newBlocks, bitsPerUnit, ceilBlocks]
  rw [Int.tdiv_eq_ediv h (by omega), Int.tmod_eq_emod h (by omega)]
  split <;> omega

/-! ## Bytes: the effect of the mask operations -/

set_option maxRecDepth 100000 in
theorem byte_or_lt : ∀ b < 256, ∀ k < 8, (b ||| (128 >>> k)) < 256 := by decide

set_option maxRecDepth 100000 in
theorem isSet_byte_or : ∀ b < 256, ∀ k < 8, isSet (b ||| (128 >>> k)) k = true := by decide

set_option maxRecDepth 100000 in
theorem toByte_or_sub : ∀ b < 256, ∀ k < 8, isSet b k = false →
    toByte (((b ||| (128 >>> k) : Nat) : Int) - ((128 >>> k : Nat) : Int)) = b := by decide

set_option maxRecDepth 100000 in
theorem isSet_toByte_sub : ∀ b : Nat, b < 256 → ∀ k : Nat, k < 8 → isSet b k = true →
    isSet (toByte ((b : Int) - ((128 >>> k : Nat) : Int))) k = false := by decide

theorem toByte_lt (x : Int) : toByte x < 256 := by
  unfold toByte
  omega

theorem isSet_zero (k : Nat) : isSet 0 k = false := by
  simp [isSet]

/-! ## Positions of a well-formed array -/

theorem validPosition_of_valid (b : BitArray) (p : Int) (h1 : 1 ≤ p) (h2 : p ≤ b.length) :
    b.validPosition p = none := by
  simp only [BitArray.validPosition]
  rw [if_neg (by omega), if_neg (by omega)]

/-- A valid position of a well-formed array is `n + 1` for an index `n` whose
byte lies in the storage. -/
theorem WellFormed.index_of_valid {b : BitArray} (hwf : WellFormed b) (p : Int)
    (h1 : 1 ≤ p) (h2 : p ≤ b.length) :
    ∃ n : Nat, p = (n : Int) + 1 ∧ n < b.length.toNat ∧ n < 9223372036854775808 ∧
      n / 8 < b.arr.length := by
  have hlt := hwf.length_lt
  have hlen := hwf.arr_length
  unfold ceilBlocks at hlen
  refine ⟨(p - 1).toNat, ?_, ?_, ?_, ?_⟩ <;> omega

theorem WellFormed.index_lt {b : BitArray} (hwf : WellFormed b) (n : Nat)
    (h : n < b.length.toNat) : n < 9223372036854775808 ∧ n / 8 < b.arr.length := by
  have hlt := hwf.length_lt
  have hlen := hwf.arr_length
  unfold ceilBlocks at hlen
  constructor <;> omega

theorem SetBit_at (b : BitArray) (n : Nat) (byte : Nat) (hn : n < 9223372036854775808)
    (h2 : (n : Int) + 1 ≤ b.length) (hb : b.arr[n / 8]? = some byte) :
    b.SetBit ((n : Int) + 1) =
      if isSet byte (n % 8) = true then some (b, some GoError.errSet)
      else some (BitArray.mk b.length (b.arr.set (n / 8) (byte ||| (128 >>> (n % 8)))), none) := by
  simp only [BitArray.SetBit, validPosition_of_valid b _ (by omega) h2, calPosition_succ n hn, hb]

theorem UnSetBit_at (b : BitArray) (n : Nat) (byte : Nat) (hn : n < 9223372036854775808)
    (h2 : (n : Int) + 1 ≤ b.length) (hb : b.arr[n / 8]? = some byte) :
    b.UnSetBit ((n : Int) + 1) =
      if isSet byte (n % 8) = false then some (b, some GoError.errUnset)
      else some (BitArray.mk b.length (b.arr.set (n / 8)
        (toByte ((byte : Int) - ((128 >>> (n % 8) : Nat) : Int)))), none) := by
  simp only [BitArray.UnSetBit, validPosition_of_valid b _ (by omega) h2, calPosition_succ n hn, hb]

theorem IsSet_at (b : BitArray) (n : Nat) (byte : Nat) (hn : n < 9223372036854775808)
    (h2 : (n : Int) + 1 ≤ b.length) (hb : b.arr[n / 8]? = some byte) :
    b.IsSet ((n : Int) + 1) = some (isSet byte (n % 8), none) := by
  simp only [BitArray.IsSet, validPosition_of_valid b _ (by omega) h2, calPosition_succ n hn, hb]

/-- On a valid position of a well-formed array `IsSet` reads `bitOf`. -/
theorem IsSet_eq_bitOf {b : BitArray} (hwf : WellFormed b) (n : Nat) (h : n < b.length.toNat) :
    b.IsSet ((n : Int) + 1) = some (bitOf b.arr n, none) := by
  obtain ⟨h63, hblk⟩ := hwf.index_lt n h
  have hb : b.arr[n / 8]? = some (b.arr[n / 8]) := List.getElem?_eq_getElem hblk
  rw [IsSet_at b n _ h63 (by omega) hb]
  simp [bitOf, hb]

/-- The loop of `ToValue`, started at position `k + 1` with `m` positions left,
appends the set positions among them. -/
theorem toValueLoop_eq {b : BitArray} (hwf : WellFormed b) :
    ∀ (m k : Nat) (vals : List Int), k + m = b.length.toNat →
      b.toValueLoop (m + 1) ((k : Int) + 1) vals =
        some (vals ++ ((List.range' k m).filter (bitOf b.arr)).map (fun j : Nat => (j : Int) + 1)) := by
  intro m
  induction m with
  | zero =>
    intro k vals hk
    have h0 := hwf.length_nonneg
    rw [BitArray.toValueLoop, if_neg (by omega)]
    simp
  | succ m ih =>
    intro k vals hk
    obtain ⟨h63, hblk⟩ := hwf.index_lt k (by omega)
    have hlt := hwf.length_lt
    have hb : b.arr[k / 8]? = some (b.arr[k / 8]) := List.getElem?_eq_getElem hblk
    have hbit : bitOf b.arr k = isSet (b.arr[k / 8]) (k % 8) := by simp [bitOf, hb]
    have hw : wrapInt ((k : Int) + 1 + 1) = ((k + 1 : Nat) : Int) + 1 := by
      rw [wrapInt_of_range] <;> omega
    rw [BitArray.toValueLoop, if_pos (by omega)]
    simp only [calPosition_succ k h63, hb, hw]
    rw [ih (k + 1) _ (by omega), List.range'_succ, List.filter_cons, hbit]
    by_cases hs : isSet (b.arr[k / 8]) (k % 8) = true
    · simp [hs]
    · simp [hs]

/-- On a well-formed array `ToValue` returns `setPositions` and a nil error. -/
theorem ToValue_eq {b : BitArray} (hwf : WellFormed b) :
    b.ToValue = some (setPositions b, none) := by
  have h0 := hwf.length_nonneg
  have h := toValueLoop_eq hwf b.length.toNat 0 [] (by omega)
  simp only [Nat.cast_zero, zero_add, List.nil_append] at h
  simp only [BitArray.ToValue]
  rw [if_neg (by omega), h]
  simp [setPositions, List.range_eq_range']

theorem mem_setPositions (b : BitArray) (q : Int) :
    q ∈ setPositions b ↔ ∃ n : Nat, n < b.length.toNat ∧ bitOf b.arr n = true ∧ q = (n : Int) + 1 := by
  simp only [setPositions, List.mem_map, List.mem_filter, List.mem_range]
  constructor
  · rintro ⟨n, ⟨h1, h2⟩, rfl⟩
    exact ⟨n, h1, h2, rfl⟩
  · rintro ⟨n, h1, h2, rfl⟩
    exact ⟨n, ⟨h1, h2⟩, rfl⟩

theorem list_set_same {α : Type} : ∀ (l : List α) (i : Nat) (x : α), l[i]? = some x → l.set i x = l
  | [], _, _, h => by simp at h
  | a :: l, 0, x, h => by
    simp only [List.getElem?_cons_zero, Option.some.injEq] at h
    simp [h]
  | a :: l, i + 1, x, h => by
    simp only [List.getElem?_cons_succ] at h
    simp [list_set_same l i x h]

theorem validPosition_eq_none_iff (b : BitArray) (p : Int) :
    b.validPosition p = none ↔ 1 ≤ p ∧ p ≤ b.length := by
  simp only [BitArray.validPosition]
  split
  · simp; omega
  · split
    · simp; omega
    · simp; omega

theorem validPosition_eq_errSetZero_iff (b : BitArray) (p : Int) :
    b.validPosition p = some GoError.errSetZero ↔ p < 1 := by
  simp only [BitArray.validPosition]
  split
  · simp; omega
  · split
    · simp; omega
    · simp; omega

theorem validPosition_eq_errOutOfIndex_iff (b : BitArray) (p : Int) :
    b.validPosition p = some GoError.errOutOfIndex ↔ 1 ≤ p ∧ p > b.length := by
  simp only [BitArray.validPosition]
  split
  · simp; omega
  · split
    · simp; omega
    · simp; omega

/-- Replacing one byte of the storage by a byte keeps the array well-formed. -/
theorem WellFormed.set {b : BitArray} (hwf : WellFormed b) (i x : Nat) (hx : x < 256) :
    WellFormed (BitArray.mk b.length (b.arr.set i x)) where
  length_nonneg := hwf.length_nonneg
  length_lt := hwf.length_lt
  arr_length := by simpa using hwf.arr_length
  bytes := by
    intro y hy
    rcases List.mem_or_eq_of_mem_set hy with h | h
    · exact hwf.bytes y h
    · exact h ▸ hx

/-- A byte read from a well-formed array at a valid index. -/
theorem WellFormed.byte_at {b : BitArray} (hwf : WellFormed b) (n : Nat)
    (h : n < b.length.toNat) :
    ∃ byte, b.arr[n / 8]? = some byte ∧ byte < 256 ∧ n < 9223372036854775808 ∧
      n / 8 < b.arr.length ∧ (n : Int) + 1 ≤ b.length := by
  obtain ⟨h63, hblk⟩ := hwf.index_lt n h
  refine ⟨b.arr[n / 8], List.getElem?_eq_getElem hblk, ?_, h63, hblk, by omega⟩
  exact hwf.bytes _ (List.getElem_mem hblk)

/-- What a `SetBit` that returns nil did. -/
theorem SetBit_nil_inv {b b' : BitArray} (hwf : WellFormed b) (p : Int)
    (h : b.SetBit p = some (b', none)) :
    ∃ (n byte : Nat), p = (n : Int) + 1 ∧ n < b.length.toNat ∧ b.arr[n / 8]? = some byte ∧
      byte < 256 ∧ isSet byte (n % 8) = false ∧
      b' = BitArray.mk b.length (b.arr.set (n / 8) (byte ||| (128 >>> (n % 8)))) := by
  have hv : b.validPosition p = none := by
    cases hvp : b.validPosition p with
    | none => rfl
    | some err => simp [BitArray.SetBit, hvp] at h
  obtain ⟨h1, h2⟩ := (validPosition_eq_none_iff b p).mp hv
  obtain ⟨n, rfl, hn, -, -⟩ := hwf.index_of_valid p h1 h2
  obtain ⟨byte, hb, hlt, h63, -, hle⟩ := hwf.byte_at n hn
  rw [SetBit_at b n byte h63 hle hb] at h
  by_cases hs : isSet byte (n % 8) = true
  · simp [hs] at h
  · rw [if_neg hs] at h
    simp only [Option.some.injEq, Prod.mk.injEq, and_true] at h
    exact ⟨n, byte, rfl, hn, hb, hlt, by simpa using hs, h.symm⟩

/-- What an `UnSetBit` that returns nil did. -/
theorem UnSetBit_nil_inv {b b' : BitArray} (hwf : WellFormed b) (p : Int)
    (h : b.UnSetBit p = some (b', none)) :
    ∃ (n byte : Nat), p = (n : Int) + 1 ∧ n < b.length.toNat ∧ b.arr[n / 8]? = some byte ∧
      byte < 256 ∧ isSet byte (n % 8) = true ∧
      b' = BitArray.mk b.length (b.arr.set (n / 8)
        (toByte ((byte : Int) - ((128 >>> (n % 8) : Nat) : Int)))) := by
  have hv : b.validPosition p = none := by
    cases hvp : b.validPosition p with
    | none => rfl
    | some err => simp [BitArray.UnSetBit, hvp] at h
  obtain ⟨h1, h2⟩ := (validPosition_eq_none_iff b p).mp hv
  obtain ⟨n, rfl, hn, -, -⟩ := hwf.index_of_valid p h1 h2
  obtain ⟨byte, hb, hlt, h63, -, hle⟩ := hwf.byte_at n hn
  rw [UnSetBit_at b n byte h63 hle hb] at h
  by_cases hs : isSet byte (n % 8) = false
  · simp [hs] at h
  · rw [if_neg hs] at h
    simp only [Option.some.injEq, Prod.mk.injEq, and_true] at h
    exact ⟨n, byte, rfl, hn, hb, hlt, by simpa using hs, h.symm⟩

/-- A call that returns an error leaves the receiver as it was. -/
theorem SetBit_err_inv {b b' : BitArray} (p : Int) (e : GoError)
    (h : b.SetBit p = some (b', some e)) : b' = b := by
  simp only [BitArray.SetBit] at h
  split at h
  · simp only [Option.some.injEq, Prod.mk.injEq] at h
    exact h.1.symm
  · split at h
    · simp at h
    · split at h
      · simp only [Option.some.injEq, Prod.mk.injEq] at h
        exact h.1.symm
      · simp at h

theorem UnSetBit_err_inv {b b' : BitArray} (p : Int) (e : GoError)
    (h : b.UnSetBit p = some (b', some e)) : b' = b := by
  simp only [BitArray.UnSetBit] at h
  split at h
  · simp only [Option.some.injEq, Prod.mk.injEq] at h
    exact h.1.symm
  · split at h
    · simp at h
    · split at h
      · simp only [Option.some.injEq, Prod.mk.injEq] at h
        exact h.1.symm
      · simp at h

/-! ## Calls on a position that fails validation -/

theorem SetBit_of_invalid {b : BitArray} {p : Int} {e : GoError}
    (h : b.validPosition p = some e) : b.SetBit p = some (b, some e) := by
  simp [BitArray.SetBit, h]

theorem UnSetBit_of_invalid {b : BitArray} {p : Int} {e : GoError}
    (h : b.validPosition p = some e) : b.UnSetBit p = some (b, some e) := by
  simp [BitArray.UnSetBit, h]

theorem IsSet_of_invalid {b : BitArray} {p : Int} {e : GoError}
    (h : b.validPosition p = some e) : b.IsSet p = some (false, some e) := by
  simp [BitArray.IsSet, h]

/-- The only error `SetBit` returns besides `errSet` is that of `validPosition`. -/
theorem SetBit_returns_iff (b : BitArray) (p : Int) (e : GoError) (he : e ≠ GoError.errSet) :
    (b.SetBit p).map Prod.snd = some (some e) ↔ b.validPosition p = some e := by
  cases hv : b.validPosition p with
  | some err => simp [SetBit_of_invalid hv]
  | none =>
    simp only [BitArray.SetBit, hv]
    split
    · simp
    · split
      · simp only [Option.map_some', Option.some.injEq]
        constructor
        · intro h
          exact absurd h.symm he
        · intro h
          exact absurd h (by simp)
      · simp

/-- The only error `UnSetBit` returns besides `errUnset` is that of `validPosition`. -/
theorem UnSetBit_returns_iff (b : BitArray) (p : Int) (e : GoError)
    (he : e ≠ GoError.errUnset) :
    (b.UnSetBit p).map Prod.snd = some (some e) ↔ b.validPosition p = some e := by
  cases hv : b.validPosition p with
  | some err => simp [UnSetBit_of_invalid hv]
  | none =>
    simp only [BitArray.UnSetBit, hv]
    split
    · simp
    · split
      · simp only [Option.map_some', Option.some.injEq]
        constructor
        · intro h
          exact absurd h.symm he
        · intro h
          exact absurd h (by simp)
      · simp

/-- The only errors `IsSet` returns are those of `validPosition`. -/
theorem IsSet_returns_iff (b : BitArray) (p : Int) (e : GoError) :
    (b.IsSet p).map Prod.snd = some (some e) ↔ b.validPosition p = some e := by
  cases hv : b.validPosition p with
  | some err => simp [IsSet_of_invalid hv]
  | none =>
    simp only [BitArray.IsSet, hv]
    split <;> simp

/-! ## Claims about `SetBit`, `UnSetBit` and `IsSet` -/

/-- Claim C2. Round trip: on a well-formed array, when `SetBit p` returns nil,
`UnSetBit p` on the result returns nil too and gives back the array as it was
before `SetBit p`, the same storage bytes and the same length. -/
theorem setBit_unSetBit_roundtrip (b b' : BitArray) (p : Int) (hwf : WellFormed b)
    (hset : b.SetBit p = some (b', none)) :
    b'.UnSetBit p = some (b, none) ∧
      ∃ b'' : BitArray, b'.UnSetBit p = some (b'', none) ∧ b''.arr = b.arr ∧
        b''.length = b.length := by
  obtain ⟨n, byte, rfl, hn, hb, hlt, hclear, rfl⟩ := SetBit_nil_inv hwf p hset
  have hk : n % 8 < 8 := Nat.mod_lt _ (by omega)
  obtain ⟨-, -, -, h63, hblk, hle⟩ := hwf.byte_at n hn
  have hb' : (b.arr.set (n / 8) (byte ||| (128 >>> (n % 8))))[n / 8]? =
      some (byte ||| (128 >>> (n % 8))) := List.getElem?_set_self hblk
  have hun : (BitArray.mk b.length (b.arr.set (n / 8) (byte ||| (128 >>> (n % 8))))).UnSetBit
      ((n : Int) + 1) = some (b, none) := by
    rw [UnSetBit_at (BitArray.mk b.length (b.arr.set (n / 8) (byte ||| (128 >>> (n % 8))))) n _
      h63 hle hb', isSet_byte_or byte hlt (n % 8) hk]
    simp only [Bool.true_eq_false, if_false]
    rw [toByte_or_sub byte hlt (n % 8) hk hclear, List.set_set, list_set_same _ _ _ hb]
  exact ⟨hun, b, hun, rfl, rfl⟩

/-- Witness of C2: `SetBit 9` then `UnSetBit 9` on the zero array of length 17. -/
theorem setBit_unSetBit_roundtrip_witness :
    WellFormed (BitArray.mk 17 [0, 0, 0]) ∧
      (BitArray.mk 17 [0, 0, 0]).SetBit 9 = some (BitArray.mk 17 [0, 128, 0], none) ∧
      (BitArray.mk 17 [0, 128, 0]).UnSetBit 9 = some (BitArray.mk 17 [0, 0, 0], none) :=
  have hwf : WellFormed (BitArray.mk 17 [0, 0, 0]) :=
    ⟨by decide, by decide, by decide, by decide⟩
  have hset : (BitArray.mk 17 [0, 0, 0]).SetBit 9 = some (BitArray.mk 17 [0, 128, 0], none) := by
    decide
  ⟨hwf, hset,
    (setBit_unSetBit_roundtrip (BitArray.mk 17 [0, 0, 0]) (BitArray.mk 17 [0, 128, 0]) 9 hwf hset).1⟩

/-- Claim C3. `SetBit` and `UnSetBit` are not idempotent: on a well-formed array and
a position `p` with `1 ≤ p ≤ length`, a second `SetBit p` in a row returns
`errSet`, a second `UnSetBit p` in a row returns `errUnset`, and the second call
leaves the array as the first call left it. -/
theorem setBit_unSetBit_twice (b : BitArray) (p : Int) (hwf : WellFormed b)
    (h1 : 1 ≤ p) (h2 : p ≤ b.length) :
    (∃ (b₁ : BitArray) (e₁ : Option GoError), b.SetBit p = some (b₁, e₁) ∧
        b₁.SetBit p = some (b₁, some GoError.errSet)) ∧
      (∃ (b₁ : BitArray) (e₁ : Option GoError), b.UnSetBit p = some (b₁, e₁) ∧
        b₁.UnSetBit p = some (b₁, some GoError.errUnset)) := by
  obtain ⟨n, rfl, hn, -, -⟩ := hwf.index_of_valid p h1 h2
  obtain ⟨byte, hb, hlt, h63, hblk, hle⟩ := hwf.byte_at n hn
  have hk : n % 8 < 8 := Nat.mod_lt _ (by omega)
  constructor
  · by_cases hs : isSet byte (n % 8) = true
    · have hfirst : b.SetBit ((n : Int) + 1) = some (b, some GoError.errSet) := by
        rw [SetBit_at b n byte h63 hle hb, if_pos hs]
      exact ⟨b, _, hfirst, hfirst⟩
    · refine ⟨BitArray.mk b.length (b.arr.set (n / 8) (byte ||| (128 >>> (n % 8)))), none, ?_, ?_⟩
      · rw [SetBit_at b n byte h63 hle hb, if_neg hs]
      · rw [SetBit_at (BitArray.mk b.length (b.arr.set (n / 8) (byte ||| (128 >>> (n % 8))))) n _
          h63 hle (List.getElem?_set_self hblk), if_pos (isSet_byte_or byte hlt (n % 8) hk)]
  · by_cases hs : isSet byte (n % 8) = false
    · have hfirst : b.UnSetBit ((n : Int) + 1) = some (b, some GoError.errUnset) := by
        rw [UnSetBit_at b n byte h63 hle hb, if_pos hs]
      exact ⟨b, _, hfirst, hfirst⟩
    · have hs' : isSet byte (n % 8) = true := by simpa using hs
      refine ⟨BitArray.mk b.length (b.arr.set (n / 8)
        (toByte ((byte : Int) - ((128 >>> (n % 8) : Nat) : Int)))), none, ?_, ?_⟩
      · rw [UnSetBit_at b n byte h63 hle hb, if_neg hs]
      · rw [UnSetBit_at (BitArray.mk b.length (b.arr.set (n / 8)
          (toByte ((byte : Int) - ((128 >>> (n % 8) : Nat) : Int))))) n _
          h63 hle (List.getElem?_set_self hblk),
          if_pos (isSet_toByte_sub byte hlt (n % 8) hk hs')]

/-- Witness of C3: position 3 of the arrays `[0x00, 0x00]` and `[0x20, 0x00]` of
length 16. -/
theorem setBit_unSetBit_twice_witness :
    WellFormed (BitArray.mk 16 [32, 0]) ∧
      (BitArray.mk 16 [0, 0]).SetBit 3 = some (BitArray.mk 16 [32, 0], none) ∧
      (BitArray.mk 16 [32, 0]).SetBit 3 = some (BitArray.mk 16 [32, 0], some GoError.errSet) ∧
      (BitArray.mk 16 [32, 0]).UnSetBit 3 = some (BitArray.mk 16 [0, 0], none) ∧
      (BitArray.mk 16 [0, 0]).UnSetBit 3 = some (BitArray.mk 16 [0, 0], some GoError.errUnset) ∧
      ((∃ (b₁ : BitArray) (e₁ : Option GoError),
          (BitArray.mk 16 [32, 0]).SetBit 3 = some (b₁, e₁) ∧
          b₁.SetBit 3 = some (b₁, some GoError.errSet)) ∧
        (∃ (b₁ : BitArray) (e₁ : Option GoError),
          (BitArray.mk 16 [32, 0]).UnSetBit 3 = some (b₁, e₁) ∧
          b₁.UnSetBit 3 = some (b₁, some GoError.errUnset))) :=
  have hwf : WellFormed (BitArray.mk 16 [32, 0]) :=
    ⟨by decide, by decide, by decide, by decide⟩
  ⟨hwf, by decide, by decide, by decide, by decide,
    setBit_unSetBit_twice (BitArray.mk 16 [32, 0]) 3 hwf (by decide) (by decide)⟩

/-- Claim C4. Position validation is shared and exact: on an array of length `L ≥ 0`
and any integer `p`, each of `SetBit p`, `UnSetBit p` and `IsSet p` returns
`errSetZero` exactly when `p < 1` and `errOutOfIndex` exactly when `1 ≤ p` and
`p > L`; `IsSet` returns `false` with any error; position `0` gives
`errSetZero` and position `L + 1` gives `errOutOfIndex`. -/
theorem position_validation (b : BitArray) (p : Int) (hL : 0 ≤ b.length) :
    (((b.SetBit p).map Prod.snd = some (some GoError.errSetZero) ↔ p < 1) ∧
      ((b.SetBit p).map Prod.snd = some (some GoError.errOutOfIndex) ↔
        (1 ≤ p ∧ p > b.length))) ∧
    (((b.UnSetBit p).map Prod.snd = some (some GoError.errSetZero) ↔ p < 1) ∧
      ((b.UnSetBit p).map Prod.snd = some (some GoError.errOutOfIndex) ↔
        (1 ≤ p ∧ p > b.length))) ∧
    (((b.IsSet p).map Prod.snd = some (some GoError.errSetZero) ↔ p < 1) ∧
      ((b.IsSet p).map Prod.snd = some (some GoError.errOutOfIndex) ↔
        (1 ≤ p ∧ p > b.length)) ∧
      (∀ (v : Bool) (e : GoError), b.IsSet p = some (v, some e) → v = false)) ∧
    (b.SetBit 0 = some (b, some GoError.errSetZero) ∧
      b.UnSetBit 0 = some (b, some GoError.errSetZero) ∧
      b.IsSet 0 = some (false, some GoError.errSetZero)) ∧
    (b.SetBit (b.length + 1) = some (b, some GoError.errOutOfIndex) ∧
      b.UnSetBit (b.length + 1) = some (b, some GoError.errOutOfIndex) ∧
      b.IsSet (b.length + 1) = some (false, some GoError.errOutOfIndex)) := by
  have hz : b.validPosition 0 = some GoError.errSetZero :=
    (validPosition_eq_errSetZero_iff b 0).mpr (by omega)
  have ho : b.validPosition (b.length + 1) = some GoError.errOutOfIndex :=
    (validPosition_eq_errOutOfIndex_iff b _).mpr (by omega)
  refine ⟨⟨?_, ?_⟩, ⟨?_, ?_⟩, ⟨?_, ?_, ?_⟩,
    ⟨SetBit_of_invalid hz, UnSetBit_of_invalid hz, IsSet_of_invalid hz⟩,
    ⟨SetBit_of_invalid ho, UnSetBit_of_invalid ho, IsSet_of_invalid ho⟩⟩
  · rw [← validPosition_eq_errSetZero_iff b p]
    exact SetBit_returns_iff b p _ (by decide)
  · rw [← validPosition_eq_errOutOfIndex_iff b p]
    exact SetBit_returns_iff b p _ (by decide)
  · rw [← validPosition_eq_errSetZero_iff b p]
    exact UnSetBit_returns_iff b p _ (by decide)
  · rw [← validPosition_eq_errOutOfIndex_iff b p]
    exact UnSetBit_returns_iff b p _ (by decide)
  · rw [← validPosition_eq_errSetZero_iff b p]
    exact IsSet_returns_iff b p _
  · rw [← validPosition_eq_errOutOfIndex_iff b p]
    exact IsSet_returns_iff b p _
  · intro v e h
    cases hv : b.validPosition p with
    | some err =>
      rw [IsSet_of_invalid hv] at h
      simp only [Option.some.injEq, Prod.mk.injEq] at h
      exact h.1.symm
    | none =>
      have := (IsSet_returns_iff b p e).mp (by rw [h]; rfl)
      rw [hv] at this
      exact absurd this (by simp)

/-- Witness of C4: positions `-3`, `0`, `17` and `5` on an array of length 16. -/
theorem position_validation_witness :
    (0 : Int) ≤ (BitArray.mk 16 [0, 0]).length ∧
      (BitArray.mk 16 [0, 0]).SetBit 17 =
        some (BitArray.mk 16 [0, 0], some GoError.errOutOfIndex) ∧
      (BitArray.mk 16 [0, 0]).UnSetBit (-3) =
        some (BitArray.mk 16 [0, 0], some GoError.errSetZero) ∧
      (BitArray.mk 16 [0, 0]).IsSet 0 = some (false, some GoError.errSetZero) ∧
      (((BitArray.mk 16 [0, 0]).SetBit 5).map Prod.snd = some (some GoError.errSetZero) ↔
        (5 : Int) < 1) :=
  ⟨by decide, by decide, by decide, by decide,
    (position_validation (BitArray.mk 16 [0, 0]) 5 (by decide)).1.1⟩

/-- Claim C5. Atomicity on error: whenever `SetBit p` or `UnSetBit p` returns a
non-nil error, the array after the call has the storage bytes and the length it
had before the call. -/
theorem error_leaves_array (b b' : BitArray) (p : Int) (e : GoError)
    (h : b.SetBit p = some (b', some e) ∨ b.UnSetBit p = some (b', some e)) :
    b'.arr = b.arr ∧ b'.length = b.length := by
  rcases h with h | h
  · rw [SetBit_err_inv p e h]
    exact ⟨rfl, rfl⟩
  · rw [UnSetBit_err_inv p e h]
    exact ⟨rfl, rfl⟩

/-- Witness of C5: `SetBit 17` on the zero array of length 16 returns
`errOutOfIndex` and leaves `[0x00, 0x00]`. -/
theorem error_leaves_array_witness :
    (BitArray.mk 16 [0, 0]).SetBit 17 = some (BitArray.mk 16 [0, 0], some GoError.errOutOfIndex) ∧
      (BitArray.mk 16 [0, 0]).arr = [0, 0] ∧ (BitArray.mk 16 [0, 0]).length = 16 :=
  have h : (BitArray.mk 16 [0, 0]).SetBit 17 =
      some (BitArray.mk 16 [0, 0], some GoError.errOutOfIndex) := by decide
  ⟨h, error_leaves_array (BitArray.mk 16 [0, 0]) (BitArray.mk 16 [0, 0]) 17
    GoError.errOutOfIndex (Or.inl h)⟩

/-! ## Claims about `ToValue` and `New` -/

theorem bitOf_replicate_zero (m n : Nat) : bitOf (List.replicate m 0) n = false := by
  simp only [bitOf, List.getElem?_replicate]
  split
  · rename_i byte h
    split at h
    · simp only [Option.some.injEq] at h
      rw [← h]
      exact isSet_zero _
    · simp at h
  · rfl

/-- On a length from 0 to `2 ^ 51` the size check of `make` in `New` passes. -/
theorem New_of_nonneg (L : Int) (h : 0 ≤ L) (hmax : L ≤ 2251799813685248) :
    New L = some (BitArray.mk L (List.replicate (ceilBlocks L) 0)) := by
  have hc : ((ceilBlocks L : Nat) : Int) ≤ 281474976710656 := by
    unfold ceilBlocks
    omega
  simp only [New, newBlocks_of_nonneg L h, makePanics, maxAlloc]
  rw [if_neg (by simp; omega)]
  simp

/-- On a length above `2 ^ 51` the size check of `make` in `New` fails. -/
theorem New_above_limit (L : Int) (h : 2251799813685248 < L) : New L = none := by
  have hc : ((ceilBlocks L : Nat) : Int) > 281474976710656 := by
    unfold ceilBlocks
    omega
  simp only [New, newBlocks_of_nonneg L (by omega), makePanics, maxAlloc]
  rw [if_pos (by simp; omega)]

theorem toValueSliceLoop_eq (b : BitArray) : ∀ (fuel : Nat) (i : Int) (vals : List Int),
    b.toValueSliceLoop fuel i (IntSlice.mk vals) = (b.toValueLoop fuel i vals).map IntSlice.mk
  | 0, _, _ => rfl
  | fuel + 1, i, vals => by
    rw [BitArray.toValueSliceLoop, BitArray.toValueLoop]
    by_cases hi : i ≤ b.length
    · rw [if_pos hi, if_pos hi]
      cases hb : b.arr[(calPosition i).1]? with
      | none => simp only [hb, Option.map_none']
      | some byte =>
        simp only [hb]
        by_cases hs : isSet byte (calPosition i).2 = true
        · simp only [hs, if_true, IntSlice.append]
          exact toValueSliceLoop_eq b fuel _ _
        · simp only [hs]
          exact toValueSliceLoop_eq b fuel _ _
    · rw [if_neg hi, if_neg hi]
      rfl

/-- The slice `ToValue` returns is never nil and holds the list of `ToValue`. -/
theorem ToValueSlice_eq (b : BitArray) :
    b.ToValueSlice = (b.ToValue).map (fun r => (IntSlice.mk r.1, r.2)) := by
  simp only [BitArray.ToValueSlice, BitArray.ToValue]
  split
  · rfl
  · rw [toValueSliceLoop_eq]
    cases b.toValueLoop (b.length.toNat + 1) 1 [] <;> rfl

/-- The array built by `New` on a length in range is well-formed. -/
theorem WellFormed.new (L : Int) (h0 : 0 ≤ L) (h1 : L < 4611686018427387904) :
    WellFormed (BitArray.mk L (List.replicate (ceilBlocks L) 0)) where
  length_nonneg := h0
  length_lt := h1
  arr_length := by simp
  bytes := by
    intro x hx
    rw [List.eq_of_mem_replicate hx]
    omega

/-- Counterexample to C7: for the length `2 ^ 51 + 1`, which is at least 1, `New`
returns no array: `make([]byte, blocks, blocks)` panics on `2 ^ 48 + 1` bytes. -/
theorem new_is_clear_fails :
    (1 : Int) ≤ 2251799813685249 ∧ newBlocks 2251799813685249 = 281474976710657 ∧
      New 2251799813685249 = none ∧ ¬ ∃ b : BitArray, New 2251799813685249 = some b := by
  have h : New 2251799813685249 = none := New_above_limit _ (by decide)
  refine ⟨by decide, by decide, h, ?_⟩
  rintro ⟨b, hb⟩
  rw [h] at hb
  exact absurd hb (by simp)

/-- Claim C7, amended. For a length `1 ≤ L ≤ 2 ^ 51`, `New L` returns an array with
`Size() = L` whose storage is `ceil(L / 8)` zero bytes, on which `IsSet p`
returns `(false, nil)` for every `p` in `1..L`; and when `8 * L` is at most
`maxAlloc`, the size that `make([]int, 0, L)` of `ToValue` asks for, `ToValue`
returns the empty list, as a slice that is not nil. -/
theorem new_is_clear (L : Int) (h1 : 1 ≤ L) (h2 : L ≤ 2251799813685248) :
    ∃ b : BitArray, New L = some b ∧ b.Size = L ∧
      b.arr = List.replicate (ceilBlocks L) 0 ∧ b.arr.length = ((L + 7) / 8).toNat ∧
      (∀ p : Int, 1 ≤ p → p ≤ L → b.IsSet p = some (false, none)) ∧
      (8 * L ≤ maxAlloc →
        b.ToValue = some ([], none) ∧ b.ToValueSlice = some (IntSlice.mk [], none)) := by
  have hwf := WellFormed.new L (by omega) (by omega)
  have hval : (BitArray.mk L (List.replicate (ceilBlocks L) 0)).ToValue = some ([], none) := by
    rw [ToValue_eq hwf]
    simp [setPositions, bitOf_replicate_zero]
  refine ⟨_, New_of_nonneg L (by omega) h2, rfl, rfl, by simp [ceilBlocks], ?_, ?_⟩
  · intro p hp1 hp2
    obtain ⟨n, rfl, hn, -, -⟩ := hwf.index_of_valid p hp1 hp2
    rw [IsSet_eq_bitOf hwf n hn, bitOf_replicate_zero]
  · intro _
    refine ⟨hval, ?_⟩
    rw [ToValueSlice_eq, hval]
    rfl

/-- Witness of C7, amended: `New 16`. -/
theorem new_is_clear_witness :
    New 16 = some (BitArray.mk 16 [0, 0]) ∧
      (BitArray.mk 16 [0, 0]).ToValueSlice = some (IntSlice.mk [], none) ∧
      ∃ b : BitArray, New 16 = some b ∧ b.Size = 16 ∧
        b.arr = List.replicate (ceilBlocks 16) 0 ∧ b.arr.length = (((16 : Int) + 7) / 8).toNat ∧
        (∀ p : Int, 1 ≤ p → p ≤ 16 → b.IsSet p = some (false, none)) ∧
        (8 * 16 ≤ maxAlloc →
          b.ToValue = some ([], none) ∧ b.ToValueSlice = some (IntSlice.mk [], none)) :=
  ⟨by decide, by decide, new_is_clear 16 (by decide) (by decide)⟩

theorem mask_eq_pow : ∀ k < 8, 128 >>> k = 2 ^ (7 - k) := by decide

/-- Counterexample to C8: for the length `2 ^ 51 + 1` and the position 1, `New`
returns no array, so `SetBit` on the fresh array does not succeed. -/
theorem setBit_on_fresh_fails :
    (1 : Int) ≤ 2251799813685249 ∧ New 2251799813685249 = none ∧
      (New 2251799813685249).bind (fun b => b.SetBit 1) = none ∧
      ¬ ∃ b b' : BitArray, New 2251799813685249 = some b ∧ b.SetBit 1 = some (b', none) := by
  have h : New 2251799813685249 = none := New_above_limit _ (by decide)
  refine ⟨by decide, h, by rw [h]; rfl, ?_⟩
  rintro ⟨b, b', hb, -⟩
  rw [h] at hb
  exact absurd hb (by simp)

/-- Claim C8, amended. On the fresh array `New L` with `1 ≤ L ≤ 2 ^ 51` and a position
`p` with `1 ≤ p ≤ L`, `SetBit p` returns nil and the resulting storage has byte
`(p - 1) / 8` equal to `0x80 >> ((p - 1) mod 8)`, that is `2 ^ (7 - (p - 1) mod 8)`,
and every other byte equal to zero. -/
theorem setBit_on_fresh (L p : Int) (h1 : 1 ≤ L) (h2 : L ≤ 2251799813685248)
    (hp1 : 1 ≤ p) (hp2 : p ≤ L) :
    ∃ b b' : BitArray, New L = some b ∧ b.SetBit p = some (b', none) ∧
      b'.length = L ∧ b'.arr.length = ceilBlocks L ∧
      ((p - 1) / 8).toNat < b'.arr.length ∧
      (∀ j : Nat, j < b'.arr.length →
        b'.arr[j]? = some (if j = ((p - 1) / 8).toNat then 128 >>> ((p - 1) % 8).toNat else 0)) ∧
      128 >>> ((p - 1) % 8).toNat = 2 ^ (7 - ((p - 1) % 8).toNat) := by
  have hwf := WellFormed.new L (by omega) (by omega)
  obtain ⟨n, rfl, hn, -, -⟩ := hwf.index_of_valid p hp1 hp2
  obtain ⟨byte, hb, -, h63, hblk, hle⟩ := hwf.byte_at n hn
  have hk : n % 8 < 8 := Nat.mod_lt _ (by omega)
  have hlen : (List.replicate (ceilBlocks L) 0).length = ceilBlocks L := List.length_replicate _ _
  have hblk' : n / 8 < ceilBlocks L := by simpa using hblk
  have hbyte : byte = 0 := by
    simp only [List.getElem?_replicate, if_pos hblk', Option.some.injEq] at hb
    exact hb.symm
  subst hbyte
  have hd : (((n : Int) + 1 - 1) / 8).toNat = n / 8 := by omega
  have hm : (((n : Int) + 1 - 1) % 8).toNat = n % 8 := by omega
  rw [hd, hm]
  refine ⟨_, BitArray.mk L ((List.replicate (ceilBlocks L) 0).set (n / 8) (128 >>> (n % 8))),
    New_of_nonneg L (by omega) h2, ?_, rfl, by simp, by simpa using hblk', ?_, mask_eq_pow _ hk⟩
  · rw [SetBit_at _ n 0 h63 hle hb, isSet_zero, if_neg (by simp), Nat.zero_or]
  · intro j hj
    simp only [List.length_set, List.length_replicate] at hj
    by_cases hjn : j = n / 8
    · subst hjn
      simp only [if_true]
      exact List.getElem?_set_self hblk
    · simp only [if_neg hjn]
      rw [List.getElem?_set_ne (fun h => hjn h.symm), List.getElem?_replicate, if_pos hj]

/-- Witness of C8, amended: `New(16).SetBit(16)` gives `[0x00, 0x01]`, `New(16).SetBit(1)`
gives `[0x80, 0x00]`, `New(16).SetBit(2)`
gives `[0x40, 0x00]`, `New(16).SetBit(8)` gives `[0x01, 0x00]` and
`New(17).SetBit(9)` gives `[0x00, 0x80, 0x00]`. -/
theorem setBit_on_fresh_witness :
    (New 16).bind (fun b => b.SetBit 16) = some (BitArray.mk 16 [0, 1], none) ∧
      (New 16).bind (fun b => b.SetBit 1) = some (BitArray.mk 16 [128, 0], none) ∧
      (New 16).bind (fun b => b.SetBit 2) = some (BitArray.mk 16 [64, 0], none) ∧
      (New 16).bind (fun b => b.SetBit 8) = some (BitArray.mk 16 [1, 0], none) ∧
      (New 17).bind (fun b => b.SetBit 9) = some (BitArray.mk 17 [0, 128, 0], none) ∧
      ∃ b b' : BitArray, New 17 = some b ∧ b.SetBit 9 = some (b', none) ∧
        b'.length = 17 ∧ b'.arr.length = ceilBlocks 17 ∧
        (((9 : Int) - 1) / 8).toNat < b'.arr.length ∧
        (∀ j : Nat, j < b'.arr.length →
          b'.arr[j]? = some (if j = (((9 : Int) - 1) / 8).toNat
            then 128 >>> (((9 : Int) - 1) % 8).toNat else 0)) ∧
        128 >>> (((9 : Int) - 1) % 8).toNat = 2 ^ (7 - (((9 : Int) - 1) % 8).toNat) :=
  ⟨by decide, by decide, by decide, by decide, by decide,
    setBit_on_fresh 17 9 (by decide) (by decide) (by decide) (by decide)⟩

/-! ## The string of `ToString` -/

theorem foldl_append_data (l : List String) : ∀ acc : String,
    (l.foldl (fun r s => r ++ s) acc).data = acc.data ++ (l.map String.data).flatten := by
  induction l with
  | nil => intro acc; simp
  | cons s l ih => intro acc; simp [ih, String.data_append]

theorem join_data (l : List String) : (String.join l).data = (l.map String.data).flatten := by
  simp [String.join, foldl_append_data]

/-- The loop of `ToString` appends `byteStrings` of every byte, in storage order. -/
theorem toStringLoop_eq : ∀ (arr : List Nat) (vals : List String),
    BitArray.toStringLoop arr vals = vals ++ arr.flatMap byteStrings
  | [], vals => by simp [BitArray.toStringLoop]
  | bt :: rest, vals => by
    rw [BitArray.toStringLoop, toStringLoop_eq rest]
    by_cases h : (fmtBinary bt).length < 8
    · simp [byteStrings, h]
    · simp [byteStrings, h]

set_option maxRecDepth 100000 in
/-- A byte renders as its eight bits, leading zeros kept. -/
theorem byteStrings_data : ∀ bt < 256, (String.join (byteStrings bt)).data = byteChars bt := by
  decide

theorem byteChars_length (bt : Nat) : (byteChars bt).length = 8 := by
  simp [byteChars]

theorem byteChars_getElem? (bt k : Nat) (hk : k < 8) :
    (byteChars bt)[k]? = some (if isSet bt k = true then '1' else '0') := by
  simp [byteChars, List.getElem?_map, List.getElem?_range hk]

theorem mem_byteChars (bt : Nat) (c : Char) (h : c ∈ byteChars bt) : c = '0' ∨ c = '1' := by
  simp only [byteChars, List.mem_map, List.mem_range] at h
  obtain ⟨k, -, rfl⟩ := h
  split
  · exact Or.inr rfl
  · exact Or.inl rfl

theorem flatMap_byteStrings_data : ∀ (arr : List Nat), (∀ x ∈ arr, x < 256) →
    (String.join (arr.flatMap byteStrings)).data = (arr.map byteChars).flatten
  | [], _ => by simp [String.join]
  | bt :: rest, h => by
    have hbt := byteStrings_data bt (h bt (List.mem_cons_self _ _))
    have hrest := flatMap_byteStrings_data rest (fun x hx => h x (List.mem_cons_of_mem _ hx))
    rw [join_data] at hbt hrest ⊢
    simp only [List.flatMap_cons, List.map_append, List.flatten_append, List.map_cons,
      List.flatten_cons, hbt, hrest]

theorem flatten_byteChars_length : ∀ (arr : List Nat),
    ((arr.map byteChars).flatten).length = 8 * arr.length
  | [] => by simp
  | bt :: rest => by
    simp only [List.map_cons, List.flatten_cons, List.length_append, byteChars_length,
      flatten_byteChars_length rest, List.length_cons]
    omega

theorem flatten_byteChars_getElem? : ∀ (arr : List Nat) (i : Nat), i < 8 * arr.length →
    ∃ byte, arr[i / 8]? = some byte ∧
      ((arr.map byteChars).flatten)[i]? = some (if isSet byte (i % 8) = true then '1' else '0')
  | [], i, h => by simp at h
  | bt :: rest, i, h => by
    simp only [List.map_cons, List.flatten_cons]
    by_cases hi : i < 8
    · refine ⟨bt, ?_, ?_⟩
      · have : i / 8 = 0 := by omega
        simp [this]
      · rw [List.getElem?_append_left (by rw [byteChars_length]; exact hi)]
        have : i % 8 = i := by omega
        rw [this]
        exact byteChars_getElem? bt i hi
    · simp only [List.length_cons] at h
      obtain ⟨byte, h1, h2⟩ := flatten_byteChars_getElem? rest (i - 8) (by omega)
      refine ⟨byte, ?_, ?_⟩
      · have : i / 8 = (i - 8) / 8 + 1 := by omega
        rw [this, List.getElem?_cons_succ]
        exact h1
      · rw [List.getElem?_append_right (by rw [byteChars_length]; omega), byteChars_length]
        have : i % 8 = (i - 8) % 8 := by omega
        rw [this]
        exact h2

/-- The string `ToString` returns when the capacity `length * 2` passes the size
check of `make`, that is for a length from 0 to `2 ^ 43`. -/
theorem ToString_eq (b : BitArray) (h0 : 0 ≤ b.length) (h1 : b.length ≤ 8796093022208)
    (hbytes : ∀ x ∈ b.arr, x < 256) :
    ∃ s : String, b.ToString = some s ∧ s.data = (b.arr.map byteChars).flatten := by
  have hw : wrapInt (b.length * 2) = b.length * 2 := by
    rw [wrapInt_of_range] <;> omega
  have hmake : makePanics 16 (b.length * 2) = false := by
    simp only [makePanics, maxAlloc, decide_eq_false_iff_not]
    omega
  refine ⟨_, ?_, flatMap_byteStrings_data b.arr hbytes⟩
  simp only [BitArray.ToString, hw, hmake]
  rw [if_neg (by simp), toStringLoop_eq]
  simp

/-- Above `2 ^ 43` the capacity `length * 2` fails the size check of `make`, and
`ToString` panics. -/
theorem ToString_above_limit (b : BitArray) (h1 : 8796093022208 < b.length)
    (h2 : b.length < 9223372036854775808) : b.ToString = none := by
  have hmake : makePanics 16 (wrapInt (b.length * 2)) = true := by
    simp only [makePanics, maxAlloc, wrapInt, decide_eq_true_eq]
    omega
  simp only [BitArray.ToString, hmake]
  rfl

/-- Counterexample to C9: the zero array of length `2 ^ 43 + 1` is well-formed and
`ToString` panics on it in `make([]string, 0, length*2)`. -/
theorem toString_length_fails :
    WellFormed (BitArray.mk 8796093022209 (List.replicate (ceilBlocks 8796093022209) 0)) ∧
      (BitArray.mk 8796093022209 (List.replicate (ceilBlocks 8796093022209) 0)).ToString =
        none ∧
      ¬ ∃ s : String,
        (BitArray.mk 8796093022209 (List.replicate (ceilBlocks 8796093022209) 0)).ToString =
          some s := by
  have h : (BitArray.mk 8796093022209
      (List.replicate (ceilBlocks 8796093022209) 0)).ToString = none :=
    ToString_above_limit _ (by decide) (by decide)
  refine ⟨WellFormed.new _ (by decide) (by decide), h, ?_⟩
  rintro ⟨s, hs⟩
  rw [h] at hs
  exact absurd hs (by simp)

/-- Claim C9, amended. On a well-formed array of length `0 ≤ L ≤ 2 ^ 43`, `ToString`
returns a string of exactly `8 * ceil(L / 8)` characters, 8 for each storage
byte, and each character is `'0'` or `'1'`. -/
theorem toString_length (b : BitArray) (hwf : WellFormed b) (hmax : b.length ≤ 8796093022208) :
    ∃ s : String, b.ToString = some s ∧ s.length = 8 * ceilBlocks b.length ∧
      s.length = 8 * b.arr.length ∧ ∀ c ∈ s.data, c = '0' ∨ c = '1' := by
  obtain ⟨s, hs, hdata⟩ := ToString_eq b hwf.length_nonneg hmax hwf.bytes
  have hlen : s.length = 8 * b.arr.length := by
    rw [String.length, hdata, flatten_byteChars_length]
  refine ⟨s, hs, ?_, hlen, ?_⟩
  · rw [hlen, hwf.arr_length]
  · intro c hc
    rw [hdata, List.mem_flatten] at hc
    obtain ⟨l, hl, hcl⟩ := hc
    rw [List.mem_map] at hl
    obtain ⟨bt, -, rfl⟩ := hl
    exact mem_byteChars bt c hcl

/-- Witness of C9, amended: the array `[0x21, 0xFF, 0x00]` of length 17 renders as 24
characters. -/
theorem toString_length_witness :
    WellFormed (BitArray.mk 17 [33, 255, 0]) ∧
      (BitArray.mk 17 [33, 255, 0]).ToString = some "001000011111111100000000" ∧
      ∃ s : String, (BitArray.mk 17 [33, 255, 0]).ToString = some s ∧
        s.length = 8 * ceilBlocks (BitArray.mk 17 [33, 255, 0]).length ∧
        s.length = 8 * (BitArray.mk 17 [33, 255, 0]).arr.length ∧
        ∀ c ∈ s.data, c = '0' ∨ c = '1' :=
  have hwf : WellFormed (BitArray.mk 17 [33, 255, 0]) :=
    ⟨by decide, by decide, by decide, by decide⟩
  ⟨hwf, by decide, toString_length (BitArray.mk 17 [33, 255, 0]) hwf (by decide)⟩

set_option maxRecDepth 1000000 in
theorem isSet_byte_or_ne : ∀ b < 256, ∀ k < 8, ∀ j < 8, j ≠ k →
    isSet (b ||| (128 >>> k)) j = isSet b j := by decide

set_option maxRecDepth 1000000 in
theorem isSet_toByte_sub_ne : ∀ b : Nat, b < 256 → ∀ k : Nat, k < 8 →
    ∀ j : Nat, j < 8 → j ≠ k → isSet b k = true →
      isSet (toByte ((b : Int) - ((128 >>> k : Nat) : Int))) j = isSet b j := by decide

/-- Replacing the byte of index `n` by one that agrees with it on the other seven
offsets changes no other bit of the storage. -/
theorem bitOf_set_ne (arr : List Nat) (n byte x : Nat) (hb : arr[n / 8]? = some byte)
    (hx : ∀ j < 8, j ≠ n % 8 → isSet x j = isSet byte j) (m : Nat) (hm : m ≠ n) :
    bitOf (arr.set (n / 8) x) m = bitOf arr m := by
  have hlt : n / 8 < arr.length := by
    by_contra hcon
    rw [List.getElem?_eq_none (by omega)] at hb
    exact absurd hb (by simp)
  by_cases hblk : m / 8 = n / 8
  · have hoff : m % 8 ≠ n % 8 := by omega
    simp only [bitOf, hblk, List.getElem?_set_self hlt, hb]
    exact hx (m % 8) (Nat.mod_lt _ (by omega)) hoff
  · simp only [bitOf, List.getElem?_set_ne (fun h => hblk h.symm)]

/-- On a well-formed array `SetBit` returns for every integer position; the
array it leaves is well-formed, has the same length and storage size, and
differs from the receiver at most in the bit of the position. -/
theorem SetBit_total {b : BitArray} (hwf : WellFormed b) (p : Int) :
    ∃ (b' : BitArray) (e : Option GoError), b.SetBit p = some (b', e) ∧ WellFormed b' ∧
      b'.length = b.length ∧ b'.arr.length = b.arr.length ∧
      ∀ m : Nat, p ≠ (m : Int) + 1 → bitOf b'.arr m = bitOf b.arr m := by
  cases hv : b.validPosition p with
  | some err => exact ⟨b, some err, SetBit_of_invalid hv, hwf, rfl, rfl, fun _ _ => rfl⟩
  | none =>
    obtain ⟨h1, h2⟩ := (validPosition_eq_none_iff b p).mp hv
    obtain ⟨n, rfl, hn, -, -⟩ := hwf.index_of_valid p h1 h2
    obtain ⟨byte, hb, hlt, h63, -, hle⟩ := hwf.byte_at n hn
    have hk : n % 8 < 8 := Nat.mod_lt _ (by omega)
    rw [SetBit_at b n byte h63 hle hb]
    by_cases hs : isSet byte (n % 8) = true
    · rw [if_pos hs]
      exact ⟨b, _, rfl, hwf, rfl, rfl, fun _ _ => rfl⟩
    · rw [if_neg hs]
      refine ⟨_, _, rfl, hwf.set _ _ (byte_or_lt byte hlt _ hk), rfl, by simp, ?_⟩
      intro m hm
      exact bitOf_set_ne b.arr n byte _ hb
        (fun j hj hjk => isSet_byte_or_ne byte hlt _ hk j hj hjk) m (by omega)

/-- On a well-formed array `UnSetBit` returns for every integer position; the
array it leaves is well-formed, has the same length and storage size, and
differs from the receiver at most in the bit of the position. -/
theorem UnSetBit_total {b : BitArray} (hwf : WellFormed b) (p : Int) :
    ∃ (b' : BitArray) (e : Option GoError), b.UnSetBit p = some (b', e) ∧ WellFormed b' ∧
      b'.length = b.length ∧ b'.arr.length = b.arr.length ∧
      ∀ m : Nat, p ≠ (m : Int) + 1 → bitOf b'.arr m = bitOf b.arr m := by
  cases hv : b.validPosition p with
  | some err => exact ⟨b, some err, UnSetBit_of_invalid hv, hwf, rfl, rfl, fun _ _ => rfl⟩
  | none =>
    obtain ⟨h1, h2⟩ := (validPosition_eq_none_iff b p).mp hv
    obtain ⟨n, rfl, hn, -, -⟩ := hwf.index_of_valid p h1 h2
    obtain ⟨byte, hb, hlt, h63, -, hle⟩ := hwf.byte_at n hn
    have hk : n % 8 < 8 := Nat.mod_lt _ (by omega)
    rw [UnSetBit_at b n byte h63 hle hb]
    by_cases hs : isSet byte (n % 8) = false
    · rw [if_pos hs]
      exact ⟨b, _, rfl, hwf, rfl, rfl, fun _ _ => rfl⟩
    · rw [if_neg hs]
      have hs' : isSet byte (n % 8) = true := by simpa using hs
      refine ⟨_, _, rfl, hwf.set _ _ (toByte_lt _), rfl, by simp, ?_⟩
      intro m hm
      exact bitOf_set_ne b.arr n byte _ hb
        (fun j hj hjk => isSet_toByte_sub_ne byte hlt _ hk j hj hjk hs') m (by omega)

/-- Claim C11. A `SetBit p` or `UnSetBit p` that returns nil on a well-formed array
changes only the bit at position `p`: `IsSet q` returns the same for every other
position `q` in `1..length`, every storage byte other than byte `(p - 1) / 8` is
unchanged, the other seven bits of byte `(p - 1) / 8` are unchanged, and
`Size()` is unchanged. -/
theorem set_unset_frame (b b' : BitArray) (p : Int) (hwf : WellFormed b)
    (h : b.SetBit p = some (b', none) ∨ b.UnSetBit p = some (b', none)) :
    (∀ q : Int, 1 ≤ q → q ≤ b.length → q ≠ p → b'.IsSet q = b.IsSet q) ∧
      (∀ j : Nat, j ≠ ((p - 1) / 8).toNat → b'.arr[j]? = b.arr[j]?) ∧
      (∃ byte byte' : Nat, b.arr[((p - 1) / 8).toNat]? = some byte ∧
        b'.arr[((p - 1) / 8).toNat]? = some byte' ∧
        ∀ k : Nat, k < 8 → k ≠ ((p - 1) % 8).toNat → isSet byte' k = isSet byte k) ∧
      b'.Size = b.Size ∧ b'.arr.length = b.arr.length := by
  have key : ∃ (n byte x : Nat), p = (n : Int) + 1 ∧ n < b.length.toNat ∧
      b.arr[n / 8]? = some byte ∧ n / 8 < b.arr.length ∧
      (∀ j < 8, j ≠ n % 8 → isSet x j = isSet byte j) ∧ x < 256 ∧
      b' = BitArray.mk b.length (b.arr.set (n / 8) x) := by
    rcases h with h | h
    · obtain ⟨n, byte, rfl, hn, hb, hlt, -, rfl⟩ := SetBit_nil_inv hwf p h
      have hk : n % 8 < 8 := Nat.mod_lt _ (by omega)
      exact ⟨n, byte, _, rfl, hn, hb, (hwf.index_lt n hn).2,
        fun j hj hjk => isSet_byte_or_ne byte hlt _ hk j hj hjk, byte_or_lt byte hlt _ hk, rfl⟩
    · obtain ⟨n, byte, rfl, hn, hb, hlt, hs, rfl⟩ := UnSetBit_nil_inv hwf p h
      have hk : n % 8 < 8 := Nat.mod_lt _ (by omega)
      exact ⟨n, byte, _, rfl, hn, hb, (hwf.index_lt n hn).2,
        fun j hj hjk => isSet_toByte_sub_ne byte hlt _ hk j hj hjk hs, toByte_lt _, rfl⟩
  obtain ⟨n, byte, x, rfl, hn, hb, hblk, hx, hx256, rfl⟩ := key
  have hwf' := hwf.set (n / 8) x hx256
  have hd : (((n : Int) + 1 - 1) / 8).toNat = n / 8 := by omega
  have hm : (((n : Int) + 1 - 1) % 8).toNat = n % 8 := by omega
  rw [hd, hm]
  refine ⟨?_, ?_, ⟨byte, x, hb, List.getElem?_set_self hblk, hx⟩, rfl, by simp⟩
  · intro q hq1 hq2 hqp
    obtain ⟨m, rfl, hm', -, -⟩ := hwf.index_of_valid q hq1 hq2
    rw [IsSet_eq_bitOf hwf' m hm', IsSet_eq_bitOf hwf m hm',
      bitOf_set_ne b.arr n byte x hb hx m (by omega)]
  · intro j hj
    exact List.getElem?_set_ne (fun h => hj h.symm)

/-- Witness of C11: `UnSetBit(8)` on the bytes `[0x21, 0xFF]` gives `[0x20, 0xFF]`. -/
theorem set_unset_frame_witness :
    WellFormed (BitArray.mk 16 [33, 255]) ∧
      (BitArray.mk 16 [33, 255]).UnSetBit 8 = some (BitArray.mk 16 [32, 255], none) ∧
      (∀ q : Int, 1 ≤ q → q ≤ (BitArray.mk 16 [33, 255]).length → q ≠ 8 →
        (BitArray.mk 16 [32, 255]).IsSet q = (BitArray.mk 16 [33, 255]).IsSet q) ∧
      (BitArray.mk 16 [32, 255]).Size = (BitArray.mk 16 [33, 255]).Size :=
  have hwf : WellFormed (BitArray.mk 16 [33, 255]) :=
    ⟨by decide, by decide, by decide, by decide⟩
  have hun : (BitArray.mk 16 [33, 255]).UnSetBit 8 = some (BitArray.mk 16 [32, 255], none) := by
    decide
  have h := set_unset_frame (BitArray.mk 16 [33, 255]) (BitArray.mk 16 [32, 255]) 8 hwf
    (Or.inr hun)
  ⟨hwf, hun, h.1, h.2.2.2.1⟩

/-! ## Invariants of the arrays reachable from `New` -/

/-- A call on a well-formed array returns, keeps the array well-formed with the
same length and storage size, and changes no bit at or beyond index `length`. -/
theorem call_total {b : BitArray} (hwf : WellFormed b) (c : Call) :
    ∃ (b' : BitArray) (e : Option GoError), b.call c = some (b', e) ∧ WellFormed b' ∧
      b'.length = b.length ∧ b'.arr.length = b.arr.length ∧
      ∀ m : Nat, b.length.toNat ≤ m → bitOf b'.arr m = bitOf b.arr m := by
  have h0 := hwf.length_nonneg
  cases c with
  | setBit p =>
    obtain ⟨b', e, hcall, hwf', hlen, harr, hframe⟩ := SetBit_total hwf p
    refine ⟨b', e, hcall, hwf', hlen, harr, ?_⟩
    intro m hm
    by_cases hp : p = (m : Int) + 1
    · have hv : b.validPosition p = some GoError.errOutOfIndex :=
        (validPosition_eq_errOutOfIndex_iff b p).mpr (by omega)
      rw [SetBit_of_invalid hv] at hcall
      simp only [Option.some.injEq, Prod.mk.injEq] at hcall
      rw [← hcall.1]
    · exact hframe m hp
  | unSetBit p =>
    obtain ⟨b', e, hcall, hwf', hlen, harr, hframe⟩ := UnSetBit_total hwf p
    refine ⟨b', e, hcall, hwf', hlen, harr, ?_⟩
    intro m hm
    by_cases hp : p = (m : Int) + 1
    · have hv : b.validPosition p = some GoError.errOutOfIndex :=
        (validPosition_eq_errOutOfIndex_iff b p).mpr (by omega)
      rw [UnSetBit_of_invalid hv] at hcall
      simp only [Option.some.injEq, Prod.mk.injEq] at hcall
      rw [← hcall.1]
    · exact hframe m hp

/-- A sequence of calls on a well-formed array returns, keeps the array
well-formed with the same length and storage size, and changes no bit at or
beyond index `length`. -/
theorem calls_total : ∀ (cs : List Call) {b : BitArray}, WellFormed b →
    ∃ b' : BitArray, b.calls cs = some b' ∧ WellFormed b' ∧
      b'.length = b.length ∧ b'.arr.length = b.arr.length ∧
      ∀ m : Nat, b.length.toNat ≤ m → bitOf b'.arr m = bitOf b.arr m
  | [], b, hwf => ⟨b, rfl, hwf, rfl, rfl, fun _ _ => rfl⟩
  | c :: cs, b, hwf => by
    obtain ⟨b₁, e, hcall, hwf₁, hlen₁, harr₁, hframe₁⟩ := call_total hwf c
    obtain ⟨b₂, hcalls, hwf₂, hlen₂, harr₂, hframe₂⟩ := calls_total cs hwf₁
    refine ⟨b₂, ?_, hwf₂, hlen₂.trans hlen₁, harr₂.trans harr₁, ?_⟩
    · simp only [BitArray.calls, hcall, hcalls]
    · intro m hm
      rw [hframe₂ m (by rw [hlen₁]; exact hm), hframe₁ m hm]

/-- Every array reached from `New L` by calls is well-formed and has no bit
set at or beyond index `L`. -/
theorem calls_from_new (L : Int) (h0 : 0 ≤ L) (h2 : L < 4611686018427387904) (cs : List Call) :
    ∃ b : BitArray, (BitArray.mk L (List.replicate (ceilBlocks L) 0)).calls cs = some b ∧
      WellFormed b ∧ b.length = L ∧ b.arr.length = ceilBlocks L ∧
      ∀ m : Nat, L.toNat ≤ m → bitOf b.arr m = false := by
  obtain ⟨b, hcalls, hwf, hlen, harr, hframe⟩ := calls_total cs (WellFormed.new L h0 h2)
  refine ⟨b, hcalls, hwf, hlen, by simpa using harr, ?_⟩
  intro m hm
  rw [hframe m hm]
  exact bitOf_replicate_zero _ _

/-- Counterexample to C12: for the length `2 ^ 51 + 1` `New` returns no array, and
for the length `2 ^ 43 + 1` and the empty sequence of calls, `ToString` on the
array of `New` panics in `make([]string, 0, length*2)`. -/
theorem padding_never_set_fails :
    (1 : Int) ≤ 8796093022209 ∧ New 2251799813685249 = none ∧
      (∃ b₀ : BitArray, New 8796093022209 = some b₀ ∧ b₀.calls [] = some b₀ ∧
        b₀.ToString = none) ∧
      ¬ ∃ (b₀ b : BitArray) (s : String), New 8796093022209 = some b₀ ∧
        b₀.calls [] = some b ∧ b.ToString = some s := by
  have hnew := New_of_nonneg 8796093022209 (by decide) (by decide)
  have hstr : (BitArray.mk 8796093022209
      (List.replicate (ceilBlocks 8796093022209) 0)).ToString = none :=
    ToString_above_limit _ (by decide) (by decide)
  refine ⟨by decide, New_above_limit _ (by decide), ⟨_, hnew, rfl, hstr⟩, ?_⟩
  rintro ⟨b₀, b, s, h0, hc, hs⟩
  rw [hnew, Option.some.injEq] at h0
  subst h0
  simp only [BitArray.calls, Option.some.injEq] at hc
  subst hc
  rw [hstr] at hs
  exact absurd hs (by simp)

/-- Claim C12, amended. Padding bits are never set: for `1 ≤ L ≤ 2 ^ 51` and every
finite sequence of `SetBit` and `UnSetBit` calls with arbitrary integer arguments
applied to `New L`, every storage bit beyond logical position `L` is 0; and
for `L ≤ 2 ^ 43` `ToString()` returns and every character at a string index
`i ≥ L` is `'0'`. -/
theorem padding_never_set (L : Int) (h1 : 1 ≤ L) (h2 : L ≤ 2251799813685248)
    (cs : List Call) :
    ∃ b₀ b : BitArray, New L = some b₀ ∧ b₀.calls cs = some b ∧
      (∀ i : Nat, L.toNat ≤ i → i < 8 * b.arr.length →
        ∃ byte : Nat, b.arr[i / 8]? = some byte ∧ isSet byte (i % 8) = false) ∧
      (L ≤ 8796093022208 →
        ∃ s : String, b.ToString = some s ∧ s.length = 8 * b.arr.length ∧
          ∀ i : Nat, L.toNat ≤ i → i < s.length → s.data[i]? = some '0') := by
  obtain ⟨b, hcalls, hwf, hlen, -, hpad⟩ := calls_from_new L (by omega) (by omega) cs
  have hbit : ∀ i : Nat, L.toNat ≤ i → i < 8 * b.arr.length →
      ∃ byte : Nat, b.arr[i / 8]? = some byte ∧ isSet byte (i % 8) = false ∧
        ((b.arr.map byteChars).flatten)[i]? = some '0' := by
    intro i hi hlt
    obtain ⟨byte, hb, hc⟩ := flatten_byteChars_getElem? b.arr i hlt
    have hz : isSet byte (i % 8) = false := by
      have := hpad i hi
      simpa [bitOf, hb] using this
    refine ⟨byte, hb, hz, ?_⟩
    rw [hc, hz]
    simp
  refine ⟨_, b, New_of_nonneg L (by omega) h2, hcalls, ?_, ?_⟩
  · intro i hi hlt
    obtain ⟨byte, hb, hz, -⟩ := hbit i hi hlt
    exact ⟨byte, hb, hz⟩
  · intro h43
    obtain ⟨s, hs, hdata⟩ := ToString_eq b hwf.length_nonneg (by rw [hlen]; exact h43) hwf.bytes
    have hslen : s.length = 8 * b.arr.length := by
      rw [String.length, hdata, flatten_byteChars_length]
    refine ⟨s, hs, hslen, ?_⟩
    intro i hi hlt
    obtain ⟨-, -, -, hc⟩ := hbit i hi (by omega)
    rw [hdata]
    exact hc

/-- Witness of C12, amended: `New(17)`, then `SetBit(17)`, `SetBit(18)`, `UnSetBit(3)`,
`SetBit(-1)`, `SetBit(24)`. -/
theorem padding_never_set_witness :
    (New 17).bind (fun b => b.calls [Call.setBit 17, Call.setBit 18, Call.unSetBit 3,
        Call.setBit (-1), Call.setBit 24]) = some (BitArray.mk 17 [0, 0, 128]) ∧
      (BitArray.mk 17 [0, 0, 128]).ToString = some "000000000000000010000000" ∧
      ∃ b₀ b : BitArray, New 17 = some b₀ ∧
        b₀.calls [Call.setBit 17, Call.setBit 18, Call.unSetBit 3, Call.setBit (-1),
          Call.setBit 24] = some b ∧
        (∀ i : Nat, (17 : Int).toNat ≤ i → i < 8 * b.arr.length →
          ∃ byte : Nat, b.arr[i / 8]? = some byte ∧ isSet byte (i % 8) = false) ∧
        ((17 : Int) ≤ 8796093022208 →
          ∃ s : String, b.ToString = some s ∧ s.length = 8 * b.arr.length ∧
            ∀ i : Nat, (17 : Int).toNat ≤ i → i < s.length → s.data[i]? = some '0') :=
  ⟨by decide, by decide, padding_never_set 17 (by decide) (by decide) _⟩

/-- A call that returns keeps the length field and the storage size, on any array. -/
theorem call_sizes {b b' : BitArray} {c : Call} {e : Option GoError}
    (h : b.call c = some (b', e)) : b'.length = b.length ∧ b'.arr.length = b.arr.length := by
  cases c with
  | setBit p =>
    simp only [BitArray.call, BitArray.SetBit] at h
    split at h
    · simp only [Option.some.injEq, Prod.mk.injEq] at h
      rw [← h.1]
      exact ⟨rfl, rfl⟩
    · split at h
      · simp at h
      · split at h
        · simp only [Option.some.injEq, Prod.mk.injEq] at h
          rw [← h.1]
          exact ⟨rfl, rfl⟩
        · simp only [Option.some.injEq, Prod.mk.injEq] at h
          rw [← h.1]
          exact ⟨rfl, by simp⟩
  | unSetBit p =>
    simp only [BitArray.call, BitArray.UnSetBit] at h
    split at h
    · simp only [Option.some.injEq, Prod.mk.injEq] at h
      rw [← h.1]
      exact ⟨rfl, rfl⟩
    · split at h
      · simp at h
      · split at h
        · simp only [Option.some.injEq, Prod.mk.injEq] at h
          rw [← h.1]
          exact ⟨rfl, rfl⟩
        · simp only [Option.some.injEq, Prod.mk.injEq] at h
          rw [← h.1]
          exact ⟨rfl, by simp⟩

theorem calls_sizes : ∀ (cs : List Call) {b b' : BitArray}, b.calls cs = some b' →
    b'.length = b.length ∧ b'.arr.length = b.arr.length
  | [], b, b', h => by
    simp only [BitArray.calls, Option.some.injEq] at h
    rw [← h]
    exact ⟨rfl, rfl⟩
  | c :: cs, b, b', h => by
    simp only [BitArray.calls] at h
    split at h
    · simp at h
    · rename_i b₁ e hcall
      obtain ⟨h1, h2⟩ := call_sizes hcall
      obtain ⟨h3, h4⟩ := calls_sizes cs h
      exact ⟨h3.trans h1, h4.trans h2⟩

/-- Counterexample to C13: for the length `2 ^ 51 + 1`, which is at least 0, `New`
produces no array: the block count is `2 ^ 48 + 1` and `make` panics. -/
theorem storage_size_invariant_fails :
    (0 : Int) ≤ 2251799813685249 ∧ newBlocks 2251799813685249 = 281474976710657 ∧
      makePanics 1 281474976710657 = true ∧ New 2251799813685249 = none ∧
      ¬ ∃ b₀ : BitArray, New 2251799813685249 = some b₀ ∧ b₀.length = 2251799813685249 := by
  have h : New 2251799813685249 = none := New_above_limit _ (by decide)
  refine ⟨by decide, by decide, by decide, h, ?_⟩
  rintro ⟨b₀, hb, -⟩
  rw [h] at hb
  exact absurd hb (by simp)

/-- Claim C13, amended. Storage-size invariant: for `0 ≤ L ≤ 2 ^ 51`, `New L` produces
an array with `len(arr) = ceil(L / 8)` and `length = L`; every `SetBit` and
`UnSetBit` call that returns, with or without an error, on any array and with
any integer argument, keeps the length field and `len(arr)`; every sequence of
calls on the array of `New L` reaches a state, and `len(arr) = ceil(length / 8)`
holds in every state so reached. -/
theorem storage_size_invariant (L : Int) (h0 : 0 ≤ L) (h1 : L ≤ 2251799813685248) :
    (∃ b₀ : BitArray, New L = some b₀ ∧ b₀.length = L ∧ b₀.arr.length = ceilBlocks L ∧
      b₀.arr.length = ((L + 7) / 8).toNat) ∧
    (∀ (b b' : BitArray) (p : Int) (e : Option GoError),
      (b.SetBit p = some (b', e) ∨ b.UnSetBit p = some (b', e)) →
        b'.length = b.length ∧ b'.arr.length = b.arr.length) ∧
    (∀ cs : List Call, ∃ b₀ b : BitArray, New L = some b₀ ∧
      b₀.calls cs = some b ∧ b.length = L ∧ b.arr.length = ceilBlocks b.length) ∧
    (∀ (b₀ b : BitArray) (cs : List Call), New L = some b₀ → b₀.calls cs = some b →
      b.length = L ∧ b.arr.length = ceilBlocks b.length) := by
  have hnew := New_of_nonneg L h0 h1
  have hreach : ∀ cs : List Call, ∃ b₀ b : BitArray, New L = some b₀ ∧
      b₀.calls cs = some b ∧ b.length = L ∧ b.arr.length = ceilBlocks b.length := by
    intro cs
    obtain ⟨b, hcalls, -, hlen, harr, -⟩ := calls_from_new L h0 (by omega) cs
    exact ⟨_, b, hnew, hcalls, hlen, by rw [harr, hlen]⟩
  refine ⟨⟨_, hnew, rfl, by simp, by simp [ceilBlocks]⟩, ?_, hreach, ?_⟩
  · intro b b' p e h
    rcases h with h | h
    · exact call_sizes (c := Call.setBit p) h
    · exact call_sizes (c := Call.unSetBit p) h
  · intro b₀ b cs hb₀ hcalls
    obtain ⟨c₀, c, hc₀, hc, hlen, harr⟩ := hreach cs
    rw [hb₀, Option.some.injEq] at hc₀
    subst hc₀
    rw [hcalls, Option.some.injEq] at hc
    subst hc
    exact ⟨hlen, harr⟩

/-- Witness of C13, amended: `New(17)` has 3 bytes, and still has after `SetBit(9)`,
`SetBit(9)`, `UnSetBit(40)`. -/
theorem storage_size_invariant_witness :
    New 17 = some (BitArray.mk 17 [0, 0, 0]) ∧
      (BitArray.mk 17 [0, 0, 0]).calls [Call.setBit 9, Call.setBit 9, Call.unSetBit 40] =
        some (BitArray.mk 17 [0, 128, 0]) ∧
      ∃ b₀ : BitArray, New 17 = some b₀ ∧ b₀.length = 17 ∧ b₀.arr.length = ceilBlocks 17 ∧
        b₀.arr.length = (((17 : Int) + 7) / 8).toNat :=
  ⟨by decide, by decide, (storage_size_invariant 17 (by decide) (by decide)).1⟩

/-- Claim C14. The position mapping `calPosition` is a bijection on the valid
positions: for `1 ≤ p ≤ length` it returns `((p - 1) / 8, (p - 1) mod 8)` with
offset at most 7 and block below `ceil(length / 8)`, `p = 8 * block + offset + 1`,
distinct positions in `1..length` have distinct pairs, and every pair with
offset at most 7 and `8 * block + offset + 1 ≤ length` is the image of that
position. -/
theorem calPosition_bijection (length p : Int) (hlen : length < 9223372036854775808)
    (h1 : 1 ≤ p) (h2 : p ≤ length) :
    calPosition p = (((p - 1) / 8).toNat, ((p - 1) % 8).toNat) ∧
      (calPosition p).2 ≤ 7 ∧ (calPosition p).1 < ceilBlocks length ∧
      p = 8 * ((calPosition p).1 : Int) + ((calPosition p).2 : Int) + 1 ∧
      (∀ q : Int, 1 ≤ q → q ≤ length → calPosition q = calPosition p → q = p) ∧
      (∀ block offset : Nat, offset ≤ 7 → 8 * (block : Int) + (offset : Int) + 1 ≤ length →
        calPosition (8 * (block : Int) + (offset : Int) + 1) = (block, offset)) := by
  have hp : p = (((p - 1).toNat : Nat) : Int) + 1 := by omega
  have hcal : calPosition p = ((p - 1).toNat / 8, (p - 1).toNat % 8) := by
    conv_lhs => rw [hp]
    exact calPosition_succ _ (by omega)
  rw [hcal]
  simp only [ceilBlocks]
  refine ⟨?_, by omega, by omega, by omega, ?_, ?_⟩
  · rw [Prod.mk.injEq]
    constructor <;> omega
  · intro q hq1 hq2 hqp
    have hq : q = (((q - 1).toNat : Nat) : Int) + 1 := by omega
    have hcalq : calPosition q = ((q - 1).toNat / 8, (q - 1).toNat % 8) := by
      conv_lhs => rw [hq]
      exact calPosition_succ _ (by omega)
    rw [hcalq, Prod.mk.injEq] at hqp
    omega
  · intro block offset hoff hle
    have h := calPosition_succ (8 * block + offset) (by omega)
    have e1 : (8 * block + offset) / 8 = block := by omega
    have e2 : (8 * block + offset) % 8 = offset := by omega
    rw [e1, e2] at h
    rw [← h]
    congr 1

/-- Witness of C14: `calPosition(1) = (0,0)`, `calPosition(8) = (0,7)`,
`calPosition(9) = (1,0)` and `calPosition(19) = (2,2)`. -/
theorem calPosition_bijection_witness :
    calPosition 1 = (0, 0) ∧ calPosition 8 = (0, 7) ∧ calPosition 9 = (1, 0) ∧
      calPosition 19 = (2, 2) ∧
      (calPosition 19 = ((((19 : Int) - 1) / 8).toNat, (((19 : Int) - 1) % 8).toNat) ∧
        (calPosition 19).2 ≤ 7 ∧ (calPosition 19).1 < ceilBlocks 24 ∧
        (19 : Int) = 8 * ((calPosition 19).1 : Int) + ((calPosition 19).2 : Int) + 1) :=
  have h := calPosition_bijection 24 19 (by decide) (by decide) (by decide)
  ⟨by decide, by decide, by decide, by decide, h.1, h.2.1, h.2.2.1, h.2.2.2.1⟩

/-! ## Panics, the subtraction of `UnSetBit`, and lengths below one -/

set_option maxRecDepth 100000 in
theorem sub_mask_facts : ∀ b : Nat, b < 256 → ∀ k : Nat, k < 8 → isSet b k = true →
    (0 ≤ (b : Int) - ((128 >>> k : Nat) : Int) ∧ (b : Int) - ((128 >>> k : Nat) : Int) ≤ 255) ∧
      (b : Int) - ((128 >>> k : Nat) : Int) = ((b ^^^ (128 >>> k) : Nat) : Int) ∧
      toByte ((b : Int) - ((128 >>> k : Nat) : Int)) = b ^^^ (128 >>> k) ∧
      toByte ((b : Int) - ((128 >>> k : Nat) : Int)) = b &&& (255 ^^^ (128 >>> k)) := by
  decide

/-- Claim C16. The subtraction of `UnSetBit` clears exactly the target bit: for a
byte `b` and an offset `k` in `0..7` with `isSet(b, k)` true, `int(b) - (0x80 >> k)`
lies in `0..255`, so the conversion to `byte` does not wrap, and equals both
`b XOR (0x80 >> k)` and `b AND NOT (0x80 >> k)`; the result has bit `k` clear and
every other bit equal to that of `b`. -/
theorem unset_subtraction (b k : Nat) (hb : b < 256) (hk : k < 8) (hs : isSet b k = true) :
    (0 ≤ (b : Int) - ((128 >>> k : Nat) : Int) ∧ (b : Int) - ((128 >>> k : Nat) : Int) ≤ 255) ∧
      ((toByte ((b : Int) - ((128 >>> k : Nat) : Int)) : Nat) : Int) =
        (b : Int) - ((128 >>> k : Nat) : Int) ∧
      toByte ((b : Int) - ((128 >>> k : Nat) : Int)) = b ^^^ (128 >>> k) ∧
      toByte ((b : Int) - ((128 >>> k : Nat) : Int)) = b &&& (255 ^^^ (128 >>> k)) ∧
      isSet (toByte ((b : Int) - ((128 >>> k : Nat) : Int))) k = false ∧
      ∀ j : Nat, j < 8 → j ≠ k →
        isSet (toByte ((b : Int) - ((128 >>> k : Nat) : Int))) j = isSet b j := by
  obtain ⟨hrange, hxor, hbx, hband⟩ := sub_mask_facts b hb k hk hs
  refine ⟨hrange, ?_, hbx, hband, isSet_toByte_sub b hb k hk hs,
    fun j hj hjk => isSet_toByte_sub_ne b hb k hk j hj hjk hs⟩
  rw [hbx, hxor]

/-- Witness of C16: the byte `0x21` and offset 7 give `0x20`. -/
theorem unset_subtraction_witness :
    isSet 33 7 = true ∧ toByte ((33 : Int) - ((128 >>> 7 : Nat) : Int)) = 32 ∧
      toByte (((33 : Nat) : Int) - ((128 >>> 7 : Nat) : Int)) = 33 ^^^ (128 >>> 7) ∧
      isSet (toByte (((33 : Nat) : Int) - ((128 >>> 7 : Nat) : Int))) 7 = false :=
  have h := unset_subtraction 33 7 (by decide) (by decide) (by decide)
  ⟨by decide, by decide, h.2.2.1, h.2.2.2.2.1⟩

/-- Counterexample to C17: on `New(0)` the position 0 fails with `errSetZero`,
not with `errOutOfIndex`, in all three methods. -/
theorem new_zero_position_zero :
    New 0 = some (BitArray.mk 0 []) ∧
      (BitArray.mk 0 []).SetBit 0 = some (BitArray.mk 0 [], some GoError.errSetZero) ∧
      (BitArray.mk 0 []).UnSetBit 0 = some (BitArray.mk 0 [], some GoError.errSetZero) ∧
      (BitArray.mk 0 []).IsSet 0 = some (false, some GoError.errSetZero) ∧
      ¬ (∀ p : Int, ((New 0).bind (fun b => b.SetBit p)).map Prod.snd =
        some (some GoError.errOutOfIndex)) := by
  refine ⟨by decide, by decide, by decide, by decide, ?_⟩
  intro h
  exact absurd (h 0) (by decide)

/-- Claim C17, amended. `New(0)` has zero storage blocks and every position access
fails: `SetBit p`, `UnSetBit p` and `IsSet p` return `errOutOfIndex` for every
`p ≥ 1` and `errSetZero` for every `p < 1`, and leave the array as it is. -/
theorem new_zero_access (p : Int) :
    ∃ b : BitArray, New 0 = some b ∧ b.arr = [] ∧ b.Size = 0 ∧
      b.SetBit p = some (b, some (if p < 1 then GoError.errSetZero else GoError.errOutOfIndex)) ∧
      b.UnSetBit p =
        some (b, some (if p < 1 then GoError.errSetZero else GoError.errOutOfIndex)) ∧
      b.IsSet p =
        some (false, some (if p < 1 then GoError.errSetZero else GoError.errOutOfIndex)) := by
  have hv : (BitArray.mk 0 []).validPosition p =
      some (if p < 1 then GoError.errSetZero else GoError.errOutOfIndex) := by
    simp only [BitArray.validPosition]
    split
    · rfl
    · rw [if_pos (by omega)]
  exact ⟨BitArray.mk 0 [], by decide, rfl, rfl, SetBit_of_invalid hv, UnSetBit_of_invalid hv,
    IsSet_of_invalid hv⟩

theorem newBlocks_of_neg (L : Int) (h : L < 0) : newBlocks L = -((-L) / 8) := by
  have hL : L = -(-L) := by omega
  have hd : L.tdiv 8 = -((-L) / 8) := by
    conv_lhs => rw [hL, Int.neg_tdiv, Int.tdiv_eq_ediv (by omega) (by omega)]
  have hm := Int.tmod_add_tdiv L 8
  simp only [newBlocks, bitsPerUnit]
  rw [if_neg (by omega), hd]

/-- Counterexample to C18: for the negative length `-1` the block count that
`New` computes is 0, not negative, and `New(-1)` returns an array. -/
theorem newBlocks_neg_one :
    newBlocks (-1) = 0 ∧ ¬ (newBlocks (-1) < 0) ∧ New (-1) = some (BitArray.mk (-1) []) ∧
      ¬ (∀ L : Int, L < 0 → newBlocks L < 0) := by
  refine ⟨by decide, by decide, by decide, ?_⟩
  intro h
  exact absurd (h (-1) (by decide)) (by decide)

/-- Claim C18, amended. For a negative length `L` the block count that `New`
computes is `L / 8` truncated towards zero, with nothing added: it is negative
exactly when `L ≤ -8`, where `New` attempts a negative-size allocation and
panics, and it is 0 for `-8 < L < 0`, where `New` returns an array of length
`L` with empty storage. -/
theorem newBlocks_negative (L : Int) (h : L < 0) :
    newBlocks L = L.tdiv 8 ∧ (newBlocks L < 0 ↔ L ≤ -8) ∧
      (L ≤ -8 → New L = none) ∧
      (-8 < L → newBlocks L = 0 ∧ New L = some (BitArray.mk L [])) := by
  have hb := newBlocks_of_neg L h
  have hL : L = -(-L) := by omega
  have hd : L.tdiv 8 = -((-L) / 8) := by
    conv_lhs => rw [hL, Int.neg_tdiv, Int.tdiv_eq_ediv (by omega) (by omega)]
  refine ⟨by rw [hb, hd], by rw [hb]; omega, ?_, ?_⟩
  · intro h8
    have hneg : newBlocks L < 0 := by rw [hb]; omega
    have hmake : makePanics 1 (newBlocks L) = true := by
      simp only [makePanics, decide_eq_true_eq]
      exact Or.inl hneg
    simp only [New, hmake]
    rfl
  · intro h8
    have hz : newBlocks L = 0 := by rw [hb]; omega
    refine ⟨hz, ?_⟩
    simp only [New, hz]
    rfl

/-- Witness of C18, amended: the lengths `-8` and `-7`. -/
theorem newBlocks_negative_witness :
    newBlocks (-8) = -1 ∧ New (-8) = none ∧ newBlocks (-7) = 0 ∧
      (newBlocks (-7) < 0 ↔ (-7 : Int) ≤ -8) ∧ (newBlocks (-8) < 0 ↔ (-8 : Int) ≤ -8) :=
  ⟨by decide, by decide, by decide, (newBlocks_negative (-7) (by decide)).2.1,
    (newBlocks_negative (-8) (by decide)).2.1⟩

/-! ## `ToString` against `ToValue` -/

/-- The characters of the storage, indexed by bit: character `i` is `'1'` exactly
when `bitOf` holds at `i`. -/
theorem flatten_byteChars_eq_map (arr : List Nat) :
    (arr.map byteChars).flatten =
      (List.range (8 * arr.length)).map (fun i => if bitOf arr i = true then '1' else '0') := by
  apply List.ext_getElem?
  intro i
  by_cases hi : i < 8 * arr.length
  · obtain ⟨byte, hb, hc⟩ := flatten_byteChars_getElem? arr i hi
    rw [hc, List.getElem?_map, List.getElem?_range hi]
    simp [bitOf, hb]
  · rw [List.getElem?_eq_none (by rw [flatten_byteChars_length]; omega),
      List.getElem?_eq_none (by simp; omega)]

theorem count_one_map_range (arr : List Nat) (N : Nat) :
    ((List.range N).map (fun i => if bitOf arr i = true then '1' else '0')).count '1' =
      ((List.range N).filter (bitOf arr)).length := by
  rw [List.count_eq_countP, List.countP_map, List.countP_eq_length_filter]
  congr 1
  apply List.filter_congr
  intro i _
  by_cases h : bitOf arr i = true <;> simp [h]

theorem filter_range_of_clear (arr : List Nat) (a c : Nat)
    (hpad : ∀ m : Nat, a ≤ m → bitOf arr m = false) :
    (List.range (a + c)).filter (bitOf arr) = (List.range a).filter (bitOf arr) := by
  rw [List.range_add, List.filter_append]
  have : (List.map (fun x => a + x) (List.range c)).filter (bitOf arr) = [] := by
    rw [List.filter_eq_nil_iff]
    intro m hm
    rw [List.mem_map] at hm
    obtain ⟨x, -, rfl⟩ := hm
    rw [hpad (a + x) (by omega)]
    simp
  rw [this, List.append_nil]

/-- Counterexample to C19: on the array of `New(-1)`, and on the well-formed zero
array of length `2 ^ 43 + 1`, which is the array of `New(2 ^ 43 + 1)`, `ToString`
panics in `make([]string, 0, length*2)`, so there is no character to compare
with. -/
theorem toString_toValue_agree_fails :
    (New (-1) = some (BitArray.mk (-1) []) ∧ (BitArray.mk (-1) []).ToString = none) ∧
    WellFormed (BitArray.mk 8796093022209 (List.replicate (ceilBlocks 8796093022209) 0)) ∧
      New 8796093022209 =
        some (BitArray.mk 8796093022209 (List.replicate (ceilBlocks 8796093022209) 0)) ∧
      (BitArray.mk 8796093022209 (List.replicate (ceilBlocks 8796093022209) 0)).ToString =
        none ∧
      ¬ ∃ (s : String) (vs : List Int),
        (BitArray.mk 8796093022209 (List.replicate (ceilBlocks 8796093022209) 0)).ToString =
          some s ∧
        (BitArray.mk 8796093022209 (List.replicate (ceilBlocks 8796093022209) 0)).ToValue =
          some (vs, none) := by
  have h : (BitArray.mk 8796093022209
      (List.replicate (ceilBlocks 8796093022209) 0)).ToString = none :=
    ToString_above_limit _ (by decide) (by decide)
  refine ⟨⟨by decide, by decide⟩, WellFormed.new _ (by decide) (by decide),
    New_of_nonneg _ (by decide) (by decide), h, ?_⟩
  rintro ⟨s, vs, hs, -⟩
  rw [h] at hs
  exact absurd hs (by simp)

/-- Claim C19, amended. `ToString` and `ToValue` agree: on a well-formed array of
length at most `2 ^ 43` and a position `p` in `1..length`, `p` occurs in
`ToValue()` exactly when the character at index `p - 1` of `ToString()` is
`'1'`; and on every array reached from `New L`, `0 ≤ L ≤ 2 ^ 43`, by `SetBit` and
`UnSetBit` calls, the number of `'1'` characters of `ToString()` equals the
length of `ToValue()`. -/
theorem toString_toValue_agree (b : BitArray) (hwf : WellFormed b)
    (hmax : b.length ≤ 8796093022208) (L : Int) (h0 : 0 ≤ L) (h2 : L ≤ 8796093022208)
    (cs : List Call) :
    (∃ (s : String) (vs : List Int), b.ToString = some s ∧ b.ToValue = some (vs, none) ∧
      ∀ p : Int, 1 ≤ p → p ≤ b.length → (p ∈ vs ↔ s.data[(p - 1).toNat]? = some '1')) ∧
    (∃ (b₀ r : BitArray) (s : String) (vs : List Int), New L = some b₀ ∧
      b₀.calls cs = some r ∧ r.ToString = some s ∧ r.ToValue = some (vs, none) ∧
      s.data.count '1' = vs.length) := by
  constructor
  · obtain ⟨s, hs, hdata⟩ := ToString_eq b hwf.length_nonneg hmax hwf.bytes
    refine ⟨s, setPositions b, hs, ToValue_eq hwf, ?_⟩
    intro p h1 hp
    obtain ⟨n, rfl, hn, -, hblk⟩ := hwf.index_of_valid p h1 hp
    have hidx : ((n : Int) + 1 - 1).toNat = n := by omega
    obtain ⟨byte, hb, hc⟩ := flatten_byteChars_getElem? b.arr n (by omega)
    have hbit : bitOf b.arr n = isSet byte (n % 8) := by simp [bitOf, hb]
    rw [hidx, hdata, hc, mem_setPositions]
    constructor
    · rintro ⟨m, -, hm, hpm⟩
      have : m = n := by omega
      subst this
      rw [← hbit, hm]
      rfl
    · intro h
      refine ⟨n, hn, ?_, rfl⟩
      rw [hbit]
      by_cases hs' : isSet byte (n % 8) = true
      · exact hs'
      · rw [if_neg hs'] at h
        exact absurd h (by decide)
  · obtain ⟨r, hcalls, hwfr, hlen, harr, hpad⟩ := calls_from_new L h0 (by omega) cs
    obtain ⟨s, hs, hdata⟩ :=
      ToString_eq r hwfr.length_nonneg (by rw [hlen]; exact h2) hwfr.bytes
    refine ⟨_, r, s, setPositions r, New_of_nonneg L h0 (by omega), hcalls, hs,
      ToValue_eq hwfr, ?_⟩
    have hsplit : 8 * r.arr.length = L.toNat + (8 * r.arr.length - L.toNat) := by
      rw [harr]
      unfold ceilBlocks
      omega
    rw [hdata, flatten_byteChars_eq_map, count_one_map_range, hsplit,
      filter_range_of_clear r.arr _ _ hpad]
    simp [setPositions, hlen]

/-- Witness of C19, amended: the bytes `[0x80, 0x30, 0x81]` of length 24, and `New(17)`
after `SetBit(17)`, `SetBit(2)`, `SetBit(2)`, `UnSetBit(17)`, `SetBit(20)`. -/
theorem toString_toValue_agree_witness :
    WellFormed (BitArray.mk 24 [128, 48, 129]) ∧
      (BitArray.mk 24 [128, 48, 129]).ToString = some "100000000011000010000001" ∧
      (BitArray.mk 24 [128, 48, 129]).ToValue = some ([1, 11, 12, 17, 24], none) ∧
      (New 17).bind (fun b => b.calls [Call.setBit 17, Call.setBit 2, Call.setBit 2,
        Call.unSetBit 17, Call.setBit 20]) = some (BitArray.mk 17 [64, 0, 0]) ∧
      ∃ (b₀ r : BitArray) (s : String) (vs : List Int), New 17 = some b₀ ∧
        b₀.calls [Call.setBit 17, Call.setBit 2, Call.setBit 2, Call.unSetBit 17,
          Call.setBit 20] = some r ∧
        r.ToString = some s ∧ r.ToValue = some (vs, none) ∧ s.data.count '1' = vs.length :=
  have hwf : WellFormed (BitArray.mk 24 [128, 48, 129]) :=
    ⟨by decide, by decide, by decide, by decide⟩
  ⟨hwf, by decide, by decide, by decide,
    (toString_toValue_agree (BitArray.mk 24 [128, 48, 129]) hwf (by decide) 17 (by decide)
      (by decide) _).2⟩

/-! ## `SetBit` on two positions -/

set_option maxRecDepth 100000 in
theorem byte_or_of_isSet : ∀ b < 256, ∀ k < 8, isSet b k = true → b ||| (128 >>> k) = b := by
  decide

/-- On a valid position `n + 1` of a well-formed array, `SetBit` leaves the storage
`orBit arr n` and returns `errSet` exactly when the bit was set. -/
theorem SetBit_eq_orBit {b : BitArray} (hwf : WellFormed b) (n : Nat) (hn : n < b.length.toNat) :
    b.SetBit ((n : Int) + 1) =
      some (BitArray.mk b.length (orBit b.arr n),
        if bitOf b.arr n = true then some GoError.errSet else none) := by
  obtain ⟨byte, hb, hlt, h63, -, hle⟩ := hwf.byte_at n hn
  have hk : n % 8 < 8 := Nat.mod_lt _ (by omega)
  have hbit : bitOf b.arr n = isSet byte (n % 8) := by simp [bitOf, hb]
  rw [SetBit_at b n byte h63 hle hb, hbit]
  simp only [orBit, hb]
  by_cases hs : isSet byte (n % 8) = true
  · rw [if_pos hs, if_pos hs, byte_or_of_isSet byte hlt _ hk hs, list_set_same _ _ _ hb]
  · rw [if_neg hs, if_neg hs]

theorem WellFormed.orBit {b : BitArray} (hwf : WellFormed b) (n : Nat) (hn : n < b.length.toNat) :
    WellFormed (BitArray.mk b.length (orBit b.arr n)) := by
  obtain ⟨byte, hb, hlt, -, -, -⟩ := hwf.byte_at n hn
  have hk : n % 8 < 8 := Nat.mod_lt _ (by omega)
  simp only [Bitee.orBit, hb]
  exact hwf.set _ _ (byte_or_lt byte hlt _ hk)

theorem bitOf_orBit_ne {b : BitArray} (hwf : WellFormed b) (n : Nat) (hn : n < b.length.toNat)
    (m : Nat) (hm : m ≠ n) : bitOf (orBit b.arr n) m = bitOf b.arr m := by
  obtain ⟨byte, hb, hlt, -, -, -⟩ := hwf.byte_at n hn
  have hk : n % 8 < 8 := Nat.mod_lt _ (by omega)
  simp only [orBit, hb]
  exact bitOf_set_ne b.arr n byte _ hb
    (fun j hj hjk => isSet_byte_or_ne byte hlt _ hk j hj hjk) m hm

theorem orBit_comm {b : BitArray} (hwf : WellFormed b) (n m : Nat) (hn : n < b.length.toNat)
    (hm : m < b.length.toNat) :
    orBit (orBit b.arr n) m = orBit (orBit b.arr m) n := by
  obtain ⟨bn, hbn, -, -, hblkn, -⟩ := hwf.byte_at n hn
  obtain ⟨bm, hbm, -, -, hblkm, -⟩ := hwf.byte_at m hm
  by_cases hblk : n / 8 = m / 8
  · have hsame : bm = bn := by
      rw [hblk, hbm] at hbn
      exact Option.some.inj hbn
    subst hsame
    have e1 : orBit b.arr n = b.arr.set (m / 8) (bm ||| (128 >>> (n % 8))) := by
      simp only [orBit, hbn]
      rw [hblk]
    have e2 : orBit b.arr m = b.arr.set (m / 8) (bm ||| (128 >>> (m % 8))) := by
      simp only [orBit, hbm]
    rw [e1, e2]
    simp only [orBit, hblk, List.getElem?_set_self hblkm, List.set_set]
    rw [Nat.lor_assoc, Nat.lor_assoc, Nat.lor_comm (128 >>> (n % 8))]
  · have e1 : orBit b.arr n = b.arr.set (n / 8) (bn ||| (128 >>> (n % 8))) := by
      simp only [orBit, hbn]
    have e2 : orBit b.arr m = b.arr.set (m / 8) (bm ||| (128 >>> (m % 8))) := by
      simp only [orBit, hbm]
    rw [e1, e2]
    simp only [orBit, List.getElem?_set_ne hblk, List.getElem?_set_ne (fun h => hblk h.symm),
      hbn, hbm]
    exact List.set_comm _ _ _ hblk

/-- `SetBit` on an invalid position after any `SetBit` returns the same error. -/
theorem SetBit_invalid_after {b : BitArray} (hwf : WellFormed b) (p q : Int) (e : GoError)
    (hv : b.validPosition p = some e) :
    ∃ (b₁ : BitArray) (e₁ : Option GoError), b.SetBit q = some (b₁, e₁) ∧
      b₁.SetBit p = some (b₁, some e) := by
  obtain ⟨b₁, e₁, hq, -, hlen, -, -⟩ := SetBit_total hwf q
  refine ⟨b₁, e₁, hq, SetBit_of_invalid ?_⟩
  simp only [BitArray.validPosition, hlen] at hv ⊢
  exact hv

/-- Claim C20. `SetBit` calls on distinct positions commute: on a well-formed array
and integers `p ≠ q`, `SetBit p` then `SetBit q` leaves the same array as
`SetBit q` then `SetBit p`, and the result returned for `p` and the result
returned for `q` are the same in both orders. -/
theorem setBit_commute (b : BitArray) (p q : Int) (hwf : WellFormed b) (hpq : p ≠ q) :
    ∃ (b₁ b₂ c₁ c₂ : BitArray) (ep eq : Option GoError),
      b.SetBit p = some (b₁, ep) ∧ b₁.SetBit q = some (b₂, eq) ∧
      b.SetBit q = some (c₁, eq) ∧ c₁.SetBit p = some (c₂, ep) ∧
      b₂ = c₂ ∧ b₂.arr = c₂.arr := by
  cases hvp : b.validPosition p with
  | some e =>
    obtain ⟨c₁, eq, hq, hp'⟩ := SetBit_invalid_after hwf p q e hvp
    exact ⟨b, c₁, c₁, c₁, some e, eq, SetBit_of_invalid hvp, hq, hq, hp', rfl, rfl⟩
  | none =>
    cases hvq : b.validPosition q with
    | some e =>
      obtain ⟨b₁, ep, hp, hq'⟩ := SetBit_invalid_after hwf q p e hvq
      exact ⟨b₁, b₁, b, b₁, ep, some e, hp, hq', SetBit_of_invalid hvq, hp, rfl, rfl⟩
    | none =>
      obtain ⟨hp1, hp2⟩ := (validPosition_eq_none_iff b p).mp hvp
      obtain ⟨hq1, hq2⟩ := (validPosition_eq_none_iff b q).mp hvq
      obtain ⟨n, rfl, hn, -, -⟩ := hwf.index_of_valid p hp1 hp2
      obtain ⟨m, rfl, hm, -, -⟩ := hwf.index_of_valid q hq1 hq2
      have hnm : n ≠ m := by
        intro h
        exact hpq (by rw [h])
      have hwfn := hwf.orBit n hn
      have hwfm := hwf.orBit m hm
      have hA := SetBit_eq_orBit hwfn m hm
      have hB := SetBit_eq_orBit hwfm n hn
      rw [bitOf_orBit_ne hwf n hn m (fun h => hnm h.symm)] at hA
      rw [bitOf_orBit_ne hwf m hm n hnm] at hB
      simp only [] at hA hB
      refine ⟨_, _, _, _, _, _, SetBit_eq_orBit hwf n hn, hA, SetBit_eq_orBit hwf m hm, hB, ?_, ?_⟩
      · rw [orBit_comm hwf n m hn hm]
      · exact orBit_comm hwf n m hn hm

/-- Witness of C20: positions 3 and 12 on the bytes `[0x20, 0x00]` of length 16,
in both orders. -/
theorem setBit_commute_witness :
    WellFormed (BitArray.mk 16 [32, 0]) ∧
      ((BitArray.mk 16 [32, 0]).SetBit 3).bind (fun r => r.1.SetBit 12) =
        some (BitArray.mk 16 [32, 16], none) ∧
      ((BitArray.mk 16 [32, 0]).SetBit 12).bind (fun r => r.1.SetBit 3) =
        some (BitArray.mk 16 [32, 16], some GoError.errSet) ∧
      ∃ (b₁ b₂ c₁ c₂ : BitArray) (ep eq : Option GoError),
        (BitArray.mk 16 [32, 0]).SetBit 3 = some (b₁, ep) ∧ b₁.SetBit 12 = some (b₂, eq) ∧
        (BitArray.mk 16 [32, 0]).SetBit 12 = some (c₁, eq) ∧ c₁.SetBit 3 = some (c₂, ep) ∧
        b₂ = c₂ ∧ b₂.arr = c₂.arr :=
  have hwf : WellFormed (BitArray.mk 16 [32, 0]) :=
    ⟨by decide, by decide, by decide, by decide⟩
  ⟨hwf, by decide, by decide, setBit_commute (BitArray.mk 16 [32, 0]) 3 12 hwf (by decide)⟩

end Bitee
